import Mathlib

/-!
Verification development for the MashDB storage engine
(`src/Parser/conditionParser.cpp`, `src/Parser/parser.cpp`,
`src/Operations/Insertion/insert.cpp`, `src/Operations/Selection/select.cpp`,
`src/Operations/Deletion/deleteRow.cpp`, `src/Operations/Update/updateRow.cpp`).

Modelling conventions:
* C++ `std::string` values are modelled as `String`; character-level work is
  done on `String.data : List Char`.  All data appearing in concrete scenarios
  is ASCII, where C++ byte-wise comparison and Lean codepoint comparison agree.
* `nlohmann::json` scalar cells are modelled by `Json` below.  Column cells in
  this engine are always scalars (written only by Insert/Update), so nested
  arrays/objects do not occur as cells.
* C++ `double` (`number_float`) is modelled as an exact rational; `stod` is
  modelled as exact decimal parsing.  No theorem below depends on
  floating-point rounding: every concrete witness/counterexample avoids the
  float branches.
* Exceptions are modelled with `Except String`; a caught-and-logged exception
  becomes the value the `catch` block produces.
-/

/-- C `isspace` on the default locale: space, \t, \n, \v, \f, \r. -/
def isSpaceC (c : Char) : Bool :=
  c = ' ' || c = '\t' || c = '\n' || c = '\x0b' || c = '\x0c' || c = '\r'

/-- C `tolower` restricted to ASCII (the only characters the sources feed it). -/
def toLowerC (c : Char) : Char :=
  if 'A' ≤ c ∧ c ≤ 'Z' then Char.ofNat (c.toNat + 32) else c

/-- `ConditionParser::toLower`: lowercase every character. -/
def strToLower (s : String) : String :=
  ⟨s.data.map toLowerC⟩

/-- `ConditionParser::trim`: strip leading and trailing `isspace` characters. -/
def strTrim (s : String) : String :=
  ⟨(s.data.dropWhile isSpaceC).reverse.dropWhile isSpaceC |>.reverse⟩

/-- Byte-wise lexicographic `<` of `std::string`, on char lists. -/
def clLt : List Char → List Char → Bool
  | [], [] => false
  | [], _ :: _ => true
  | _ :: _, [] => false
  | a :: as, b :: bs =>
    if a.toNat < b.toNat then true
    else if b.toNat < a.toNat then false
    else clLt as bs

/-- `std::string` `operator<` on `String`s. -/
def strLt (a b : String) : Bool := clLt a.data b.data

/-! ### Scalar JSON values (`nlohmann::json` cells) -/

/-- Scalar `nlohmann::json` values as they occur in column cells.  `float`
holds the exact rational value of the C++ `double`. -/
inductive Json where
  | null
  | bool (b : Bool)
  | int (n : Int)
  | float (q : Rat)
  | str (s : String)
deriving DecidableEq, Repr

/-- Decimal digit string of a natural number (`std::to_string`). -/
def natStr (n : Nat) : List Char := Nat.toDigits 10 n

/-- `std::to_string(int64_t)`. -/
def intStr (n : Int) : List Char :=
  if n < 0 then '-' :: natStr n.natAbs else natStr n.natAbs

/-- Numeric value of a digit list. -/
def digitsVal (l : List Char) : Nat :=
  l.foldl (fun a c => a * 10 + (c.toNat - 48)) 0

/-- `std::to_string(double)`: `%f` fixed notation with six fractional digits.
The rounding of the exact rational to six places is modelled as round half up;
no theorem below evaluates this on a tie. -/
def ratToFixed6 (q : Rat) : List Char :=
  let m : Int := ⌊|q| * 1000000 + 1/2⌋
  let ip := natStr (m.toNat / 1000000)
  let fp := natStr (m.toNat % 1000000)
  (if q < 0 then ['-'] else []) ++ ip ++ ['.'] ++ (List.replicate (6 - fp.length) '0' ++ fp)

/-- The trailing-zero strip applied to float text in
`ConditionParser::evaluateCondition`: erase trailing `'0'`s, then a trailing
`'.'`. -/
def stripFloatZeros (l : List Char) : List Char :=
  let r := l.reverse.dropWhile (fun c => c = '0')
  (match r with
   | '.' :: t => t
   | _ => r).reverse

/-- The canonical text of a stored value, as computed at the top of
`ConditionParser::evaluateCondition` (the spec's §4.1 canonicalization).
Composite values do not occur as cells, so the `dump()` branch is absent. -/
def canonicalJson : Json → String
  | .null => "NULL"
  | .bool b => if b then "true" else "false"
  | .int n => ⟨intStr n⟩
  | .float q => ⟨stripFloatZeros (ratToFixed6 q)⟩
  | .str s => s

/-! ### `stoll` / `stod` -/

/-- `std::stoll`: skip whitespace, optional sign, a non-empty digit prefix,
`none` when there is no digit or the value overflows `int64`. -/
def stollOpt (s : String) : Option Int :=
  let l0 := s.data.dropWhile isSpaceC
  let neg := match l0 with | '-' :: _ => true | _ => false
  let l1 := match l0 with
    | '-' :: r => r
    | '+' :: r => r
    | _ => l0
  let ds := l1.takeWhile Char.isDigit
  if ds = [] then none
  else
    let v : Int := if neg then -(digitsVal ds : Int) else (digitsVal ds : Int)
    if v < -(2 ^ 63) ∨ 2 ^ 63 - 1 < v then none else some v

/-- `std::stod` on decimal input: skip whitespace, optional sign, digits with
an optional fraction and exponent; `none` when no digit is found.  The value
is the exact rational (double rounding not modelled; hex/inf/nan forms not
modelled — they never reach this code from the engine). -/
def stodOpt (s : String) : Option Rat :=
  let l0 := s.data.dropWhile isSpaceC
  let neg := match l0 with | '-' :: _ => true | _ => false
  let l1 := match l0 with
    | '-' :: r => r
    | '+' :: r => r
    | _ => l0
  let ip := l1.takeWhile Char.isDigit
  let l2 := l1.drop ip.length
  let fp := match l2 with
    | '.' :: r => r.takeWhile Char.isDigit
    | _ => []
  let l3 := match l2 with
    | '.' :: r => r.drop fp.length
    | _ => l2
  if ip = [] ∧ fp = [] then none
  else
    let e : Int :=
      match l3 with
      | 'e' :: r | 'E' :: r =>
        let eneg := match r with | '-' :: _ => true | _ => false
        let r1 := match r with
          | '-' :: t => t
          | '+' :: t => t
          | _ => r
        let eds := r1.takeWhile Char.isDigit
        if eds = [] then 0 else if eneg then -(digitsVal eds : Int) else (digitsVal eds : Int)
      | _ => 0
    let mant : Rat := (digitsVal ip : Rat) + (digitsVal fp : Rat) / ((10 : Rat) ^ fp.length)
    let v := mant * (10 : Rat) ^ e
    some (if neg then -v else v)

/-! ### The six comparison primitives of `conditionParser.cpp` -/

/-- `ConditionParser::compareEqual`. -/
def compareEqual (fieldValue conditionValue : String) : Bool :=
  if strToLower conditionValue = "null" then
    fieldValue = "NULL" || fieldValue = ""
  else
    strTrim fieldValue = strTrim conditionValue

/-- `ConditionParser::compareNotEqual`. -/
def compareNotEqual (fieldValue conditionValue : String) : Bool :=
  !compareEqual fieldValue conditionValue

/-- `ConditionParser::compareGreaterThan`: float compare when either side
contains `'.'`, else int64 compare, falling back to lexicographic text
comparison when a conversion throws. -/
def compareGreaterThan (fieldValue conditionValue : String) : Bool :=
  if fieldValue.data.contains '.' || conditionValue.data.contains '.' then
    match stodOpt fieldValue, stodOpt conditionValue with
    | some a, some b => decide (b < a)
    | _, _ => strLt conditionValue fieldValue
  else
    match stollOpt fieldValue, stollOpt conditionValue with
    | some a, some b => decide (b < a)
    | _, _ => strLt conditionValue fieldValue

/-- `ConditionParser::compareLessThan`. -/
def compareLessThan (fieldValue conditionValue : String) : Bool :=
  if fieldValue.data.contains '.' || conditionValue.data.contains '.' then
    match stodOpt fieldValue, stodOpt conditionValue with
    | some a, some b => decide (a < b)
    | _, _ => strLt fieldValue conditionValue
  else
    match stollOpt fieldValue, stollOpt conditionValue with
    | some a, some b => decide (a < b)
    | _, _ => strLt fieldValue conditionValue

/-- `ConditionParser::compareGreaterEqual` = equal OR strictly greater. -/
def compareGreaterEqual (fieldValue conditionValue : String) : Bool :=
  compareEqual fieldValue conditionValue || compareGreaterThan fieldValue conditionValue

/-- `ConditionParser::compareLessEqual` = equal OR strictly less. -/
def compareLessEqual (fieldValue conditionValue : String) : Bool :=
  compareEqual fieldValue conditionValue || compareLessThan fieldValue conditionValue

/-! ### `compareLike` (`ConditionParser::compareLike`)

The translation loop emits `".*"` for `'%'`, `"."` for `'_'`, a backslash
escape for `. ^ $ | ( ) [ ] \x7b \x7d \ + ?` and copies every other character
verbatim — in particular `'*'` is copied unescaped.  Hence the produced
ECMAScript regex consists only of literal atoms, `.` atoms, and `*`
quantifiers; a `*` with no preceding atom (or following another quantifier)
makes the regex invalid, in which case `compareLike` returns `false`. -/

/-- A regex atom of the translated LIKE pattern. -/
inductive LikeTok where
  | chr (c : Char)
  | dot
deriving DecidableEq, Repr

/-- Compile the LIKE pattern to `(atom, starred)` pairs; `none` models an
invalid regex (`std::regex_error`). -/
def likeCompile : List Char → List (LikeTok × Bool) → Option (List (LikeTok × Bool))
  | [], acc => some acc
  | c :: rest, acc =>
    if c = '%' then likeCompile rest (acc ++ [(LikeTok.dot, true)])
    else if c = '_' then likeCompile rest (acc ++ [(LikeTok.dot, false)])
    else if c = '*' then
      match acc.getLast? with
      | none => none
      | some (_, true) => none
      | some (t, false) => likeCompile rest (acc.dropLast ++ [(t, true)])
    else likeCompile rest (acc ++ [(LikeTok.chr c, false)])

/-- One atom against one character, `icase`; ECMAScript `.` does not match
line terminators. -/
def tokMatches (t : LikeTok) (c : Char) : Bool :=
  match t with
  | .chr a => toLowerC a = toLowerC c
  | .dot => !(c = '\n' || c = '\r' || c = Char.ofNat 0x2028 || c = Char.ofNat 0x2029)

/-- Backtracking matcher, fuel-structured so the kernel can evaluate it;
every recursive call strictly decreases `ts.length + s.length`, so
`likeMatch` below always supplies enough fuel and the `0` case is
unreachable. -/
def likeMatchF : Nat → List (LikeTok × Bool) → List Char → Bool
  | 0, _, _ => false
  | _ + 1, [], [] => true
  | _ + 1, [], _ :: _ => false
  | _ + 1, (_, false) :: _, [] => false
  | fuel + 1, (t, false) :: ts, c :: cs => tokMatches t c && likeMatchF fuel ts cs
  | fuel + 1, (t, true) :: ts, s =>
    likeMatchF fuel ts s ||
      (match s with
       | [] => false
       | c :: cs => tokMatches t c && likeMatchF fuel ((t, true) :: ts) cs)

/-- `std::regex_match` (full match) for the compiled atom/quantifier list. -/
def likeMatch (ts : List (LikeTok × Bool)) (s : List Char) : Bool :=
  likeMatchF (ts.length + s.length + 1) ts s

/-- `ConditionParser::compareLike`. -/
def compareLike (fieldValue pattern : String) : Bool :=
  match likeCompile pattern.data [] with
  | none => false
  | some ts => likeMatch ts fieldValue.data

/-! ### `Condition` and its grammar -/

/-- The parsed condition (`Condition` struct of `conditionParser.h`). -/
structure Condition where
  column : String
  op : String
  value : String
deriving DecidableEq, Repr

instance : Inhabited Condition := ⟨⟨"", "", ""⟩⟩

/-- ECMAScript `\w`. -/
def wordChar (c : Char) : Bool := c.isAlpha || c.isDigit || c = '_'

/-- The value capture of the condition regex
`(?:'[^']*'|"[^"]*"|\d+(?:\.\d+)?|\w+)` followed by `\s*$`; the raw matched
text is returned (quotes are NOT stripped here — `match[4]`/`match[5]` do not
exist, so `parseCondition` stores `match[3]` verbatim). -/
def parseCondValue (l : List Char) : Option String :=
  let v := l.dropWhile isSpaceC
  match v with
  | '\'' :: r =>
    let inner := r.takeWhile (fun c => c ≠ '\'')
    (match r.drop inner.length with
     | '\'' :: tail =>
       if tail.dropWhile isSpaceC = [] then some ⟨'\'' :: (inner ++ ['\''])⟩ else none
     | _ => none)
  | '"' :: r =>
    let inner := r.takeWhile (fun c => c ≠ '"')
    (match r.drop inner.length with
     | '"' :: tail =>
       if tail.dropWhile isSpaceC = [] then some ⟨'"' :: (inner ++ ['"'])⟩ else none
     | _ => none)
  | _ =>
    let core := (v.reverse.dropWhile isSpaceC).reverse
    let isNum : Bool :=
      let ip := core.takeWhile Char.isDigit
      !ip.isEmpty &&
        (match core.drop ip.length with
         | [] => true
         | '.' :: fp => !fp.isEmpty && fp.all Char.isDigit
         | _ => false)
    if core = [] then none
    else if isNum then some ⟨core⟩
    else if core.all wordChar then some ⟨core⟩
    else none

/-- `ConditionParser::parseCondition`.

Deterministic rendering of the anchored backtracking regex
`^\s*(\w+)\s*(={1,2}|!=|>|<|>=|<=|\s+LIKE\s+)\s*(value)\s*$` (icase):
the column is the maximal `\w+` run; because no value alternative can start
with `=`, the ordered alternation with backtracking selects exactly the
longest symbolic operator prefix (`==` over `=`, `>=` over `>`, `<=` over
`<`); `LIKE` requires whitespace on both sides.  `cond.op` is the trimmed,
lowercased operator text — `==` is NOT rewritten to `=` here. -/
def parseCondition (s : String) : Except String Condition :=
  if s = "" then .error "Empty condition"
  else
    let l := s.data.dropWhile isSpaceC
    let col := l.takeWhile wordChar
    let err : Except String Condition :=
      .error "Invalid condition format. Expected: column operator value"
    if col = [] then err
    else
      let rest := l.drop col.length
      let restW := rest.dropWhile isSpaceC
      let opTail : Option (String × List Char) :=
        if restW.take 2 = ['=', '='] then some ("==", restW.drop 2)
        else if restW.take 2 = ['!', '='] then some ("!=", restW.drop 2)
        else if restW.take 2 = ['>', '='] then some (">=", restW.drop 2)
        else if restW.take 2 = ['<', '='] then some ("<=", restW.drop 2)
        else if restW.take 1 = ['='] then some ("=", restW.drop 1)
        else if restW.take 1 = ['>'] then some (">", restW.drop 1)
        else if restW.take 1 = ['<'] then some ("<", restW.drop 1)
        else if (match rest with | c :: _ => isSpaceC c | [] => false) &&
                ((restW.take 4).map toLowerC == ['l', 'i', 'k', 'e']) &&
                (match restW.drop 4 with | c :: _ => isSpaceC c | _ => false) then
          some (⟨restW.take 4⟩, restW.drop 4)
        else none
      match opTail with
      | none => err
      | some (op, tail) =>
        match parseCondValue tail with
        | none => err
        | some v => .ok ⟨⟨col⟩, strToLower (strTrim op), v⟩

/-- The quote strip at the top of `ConditionParser::evaluateCondition`. -/
def stripQuotes (s : String) : String :=
  match s.data with
  | [] => s
  | c :: rest =>
    if rest = [] then s
    else if (c = '\'' ∧ rest.getLast? = some '\'') ∨ (c = '"' ∧ rest.getLast? = some '"') then
      ⟨rest.dropLast⟩
    else s

/-- `ConditionParser::evaluateCondition`: canonicalize the stored value,
strip quotes from the literal, dispatch on the lowercased operator;
an unsupported operator throws. -/
def evaluateCondition (value : Json) (condition : Condition) : Except String Bool :=
  let fieldValue := canonicalJson value
  let op := strToLower condition.op
  let condValue := stripQuotes condition.value
  if op = "=" then .ok (compareEqual fieldValue condValue)
  else if op = "!=" then .ok (compareNotEqual fieldValue condValue)
  else if op = ">" then .ok (compareGreaterThan fieldValue condValue)
  else if op = "<" then .ok (compareLessThan fieldValue condValue)
  else if op = ">=" then .ok (compareGreaterEqual fieldValue condValue)
  else if op = "<=" then .ok (compareLessEqual fieldValue condValue)
  else if op = "like" then .ok (compareLike fieldValue condValue)
  else .error ("Unsupported operator: " ++ op)

/-- A condition evaluation as the engine's row loops use it: a thrown
evaluation error is caught and treated as non-match. -/
def evalCondBool (value : Json) (condition : Condition) : Bool :=
  match evaluateCondition value condition with
  | .ok b => b
  | .error _ => false

/-! ### `nlohmann::json` `operator<` and the SELECT sort -/

/-- The type-rank nlohmann uses when the operand types differ
(null < boolean < number < object < array < string); only scalar cells
occur here. -/
def jsonRank : Json → Nat
  | .null => 0
  | .bool _ => 1
  | .int _ => 2
  | .float _ => 2
  | .str _ => 5

/-- `nlohmann::json` `operator<`: numbers compare numerically (integers cast
to double against floats), same-type scalars by value, different types by
rank. -/
def jsonLt (a b : Json) : Bool :=
  match a, b with
  | .int m, .int n => decide (m < n)
  | .int m, .float q => decide ((m : Rat) < q)
  | .float p, .int n => decide (p < (n : Rat))
  | .float p, .float q => decide (p < q)
  | .bool x, .bool y => !x && y
  | .str s, .str t => strLt s t
  | .null, .null => false
  | a, b => decide (jsonRank a < jsonRank b)

/-- Non-strict companion of `jsonLt` (`a` need not come after `b`). -/
def jsonLe (a b : Json) : Bool := !jsonLt b a

/-- Insert `x` into an already-sorted list, after every element it does not
strictly precede (ties keep the earlier element first). -/
def insBy (comp : α → α → Bool) (x : α) : List α → List α
  | [] => [x]
  | y :: ys => if comp x y then x :: y :: ys else y :: insBy comp x ys

/-- Stable insertion sort with a strict comparator.  `std::sort` in
`Selection::selectFromTable` guarantees only *some* order consistent with the
comparator (tie order unspecified); `sortBy` is one admissible execution, and
the one that is stable.  On tie-free inputs every admissible execution
produces this permutation. -/
def sortBy (comp : α → α → Bool) (l : List α) : List α :=
  l.foldl (fun acc x => insBy comp x acc) []

/-! ### `std::map<std::string, _>` as a key-sorted association list -/

/-- `operator[]`-style insert of `std::map`: overwrite an existing key,
otherwise place the new key at its sorted position. -/
def smapInsert (k : String) (v : α) : List (String × α) → List (String × α)
  | [] => [(k, v)]
  | (k', v') :: rest =>
    if k = k' then (k, v) :: rest
    else if strLt k k' then (k, v) :: (k', v') :: rest
    else (k', v') :: smapInsert k v rest

/-- `map::find` / `map::count`-style lookup. -/
def smapLookup (k : String) : List (String × α) → Option α
  | [] => none
  | (k', v') :: rest => if k = k' then some v' else smapLookup k rest

/-! ### The SELECT pipeline (`Selection::selectFromTable`, lines 92-162)

`columnData` is the loaded `std::map<string, json>` (key-sorted); a row object
is likewise a key-sorted association list.  Out-of-range `json::operator[]`
array access is undefined behaviour in the source; it is modelled as
`List.getD _ Json.null`, and every theorem that could reach it assumes equal
column lengths. -/

/-- A result/row object. -/
abbrev JsonObj := List (String × Json)

/-- `rowCount = columnData.begin()->second.size()` (the alphabetically first
loaded column's length; `0` when nothing is loaded). -/
def selectRowCount (columnData : List (String × List Json)) : Nat :=
  match columnData with
  | [] => 0
  | (_, vs) :: _ => vs.length

/-- The `std::sort` comparator over row indices:
`ascending ? order[a] < order[b] : order[a] > order[b]` with nlohmann
`operator<`. -/
def selectOrderComp (ovals : List Json) (asc : Bool) (a b : Nat) : Bool :=
  if asc then jsonLt (ovals.getD a Json.null) (ovals.getD b Json.null)
  else jsonLt (ovals.getD b Json.null) (ovals.getD a Json.null)

/-- The index permutation after the optional ordering step. -/
def selectSortedIndices (columnData : List (String × List Json))
    (orderBy : String) (asc : Bool) : List Nat :=
  if orderBy = "" then List.range (selectRowCount columnData)
  else
    sortBy (selectOrderComp ((smapLookup orderBy columnData).getD []) asc)
      (List.range (selectRowCount columnData))

/-- The `rowData` object handed to the WHERE lambda: every **loaded** column's
cell at `i` (not every schema column's). -/
def selectRowData (columnData : List (String × List Json)) (i : Nat) : JsonObj :=
  columnData.map (fun p => (p.1, p.2.getD i Json.null))

/-- `l.take n` when a limit is present. -/
def takeOpt (lim : Option Nat) (l : List α) : List α :=
  match lim with
  | none => l
  | some n => l.take n

/-- Indices of the emitted rows: sorted indices, filtered by the WHERE
lambda, then `OFFSET` (skip among matches), then `LIMIT`. -/
def selectCoreIndices (columnData : List (String × List Json))
    (whereCond : Option (JsonObj → Bool)) (orderBy : String) (asc : Bool)
    (lim : Option Nat) (off : Nat) : List Nat :=
  let pass : Nat → Bool := fun i =>
    match whereCond with
    | none => true
    | some f => f (selectRowData columnData i)
  takeOpt lim (((selectSortedIndices columnData orderBy asc).filter pass).drop off)

/-- The emitted result rows: for each emitted index, the projected columns'
cells collected into a row object. -/
def selectCore (columnData : List (String × List Json)) (selectedColumns : List String)
    (whereCond : Option (JsonObj → Bool)) (orderBy : String) (asc : Bool)
    (lim : Option Nat) (off : Nat) : List JsonObj :=
  (selectCoreIndices columnData whereCond orderBy asc lim off).map (fun i =>
    selectedColumns.foldl
      (fun r c => smapInsert c (((smapLookup c columnData).getD []).getD i Json.null) r) [])

/-- The WHERE lambda built in `ParseQuery::parse` (lines 253-265): a missing
column or a thrown evaluation error is caught and treated as non-match. -/
def parserWhere (cond : Condition) (row : JsonObj) : Bool :=
  match smapLookup cond.column row with
  | none => false
  | some v => evalCondBool v cond

/-! ### On-disk state

The filesystem is a finite map from path strings to parsed file contents.
Parsed column files are JSON objects whose values are scalar arrays
(`nlohmann::json` objects are `std::map`-backed, so `smapInsert`/`smapLookup`
apply).  A file whose contents do not fit the expected shape makes the model
operation fail; the source would raise a `nlohmann::json` error there.

Two levels of filesystem semantics are used.  In the base model paths are
atoms and writes always succeed; in particular Insert's temp path
`finalPath / ".tmp"` (a sub-path of the `.json` file) is simply a distinct
key, so the base model expresses the staging protocol as designed, success
path included.  On a real POSIX filesystem, however, a path component that
is a regular file makes the unchecked `ofstream` open fail (`ENOTDIR`) and
the write is silently dropped; `ofstreamWrite` and the `Posix`-suffixed
Insert definitions refine the base model with exactly this behavior (and
`fs::rename` of a nonexistent source raising, which `commitStaged` already
models).  `posixWF` states the representability invariant every real
filesystem satisfies: no file lies strictly under another file's path. -/

/-- Parsed column-file content: `\x7b col: [v0, v1, ...] \x7d`. -/
abbrev ColObj := List (String × List Json)

/-- One column's schema entry in `Table-info.json`. -/
structure ColMeta where
  typ : String
  isUnique : Bool
  notNull : Bool
deriving DecidableEq, Repr

/-- Parsed `Table-info.json`: a key-sorted map (nlohmann default `json`
sorts object keys, so schema order is alphabetical, not insertion order). -/
abbrev TableInfo := List (String × ColMeta)

/-- A parsed file. -/
inductive FileData where
  | colFile (o : ColObj)
  | infoFile (ti : TableInfo)
deriving DecidableEq, Repr

/-- The filesystem: an association list from absolute path to content. -/
abbrev FS := List (String × FileData)

def fsLookup (p : String) : FS → Option FileData
  | [] => none
  | (q, d) :: rest => if p = q then some d else fsLookup p rest

/-- Create or overwrite the file at `p`. -/
def fsWrite (p : String) (d : FileData) : FS → FS
  | [] => [(p, d)]
  | (q, e) :: rest => if p = q then (p, d) :: rest else (q, e) :: fsWrite p d rest

/-- `fs::remove`. -/
def fsErase (p : String) : FS → FS
  | [] => []
  | (q, e) :: rest => if p = q then fsErase p rest else (q, e) :: fsErase p rest

/-- `fs::exists`: the path is a file, or a directory containing some file. -/
def fsExists (p : String) (fs : FS) : Bool :=
  (fsLookup p fs).isSome || fs.any (fun e => List.isPrefixOf (p.data ++ ['/']) e.1.data)

/-- The commit loop shared by the mutators: `fs::rename(temp, final)` for
every staged pair.  `faults` are final paths on which the rename raises
(e.g. `EXDEV`/`ENOSPC`/permission); the loop stops at the first failure. -/
def commitStaged (faults : List String) : List (String × String) → FS → Except String Unit × FS
  | [], fs => (.ok (), fs)
  | (t, f) :: rest, fs =>
    if f ∈ faults then (.error ("rename failed: " ++ f), fs)
    else
      match fsLookup t fs with
      | none => (.error ("rename failed: " ++ t), fs)
      | some d => commitStaged faults rest (fsWrite f d (fsErase t fs))

/-- The catch-block cleanup shared by the mutators: remove every staged temp
file that still exists. -/
def rollbackStaged : List (String × String) → FS → FS
  | [], fs => fs
  | (t, _) :: rest, fs => rollbackStaged rest (fsErase t fs)

/-! ### Paths -/

/-- Insert/Delete/table-creation root: `$HOME/.mashdb/databases/<db>/<table>`. -/
def insertBasePath (home db t : String) : String :=
  home ++ "/.mashdb/databases/" ++ db ++ "/" ++ t

/-- Select/Update root: `<cwd>/Databases/<db>/<table>`. -/
def selectBasePath (cwd db t : String) : String :=
  cwd ++ "/Databases/" ++ db ++ "/" ++ t

def infoPath (base : String) : String := base ++ "/Table-info.json"

def colPath (base c : String) : String := base ++ "/Columns/" ++ c ++ ".json"

/-- Insert's temp path: `finalPath / ".tmp"` — `std::filesystem::path`
`operator/` appends a separator, yielding a sub-path of the `.json` file. -/
def insTempPath (base c : String) : String := colPath base c ++ "/.tmp"

/-- Delete/Update's temp path: `finalPath.string() + ".tmp"`. -/
def tmpPath (base c : String) : String := colPath base c ++ ".tmp"

/-- Length of the column array stored at `colPath base c`. -/
def colLenFS (fs : FS) (base c : String) : Nat :=
  match fsLookup (colPath base c) fs with
  | some (.colFile o) => ((smapLookup c o).getD []).length
  | _ => 0

/-! ### Insert (`InsertIntoTable::insert`) -/

/-- The `typeName` computed for the TypeMismatch message. -/
def jsonTypeName : Json → String
  | .str _ => "string"
  | .int _ => "integer"
  | .float _ => "float"
  | .bool _ => "boolean"
  | .null => "unknown"

/-- The declared-type family check of `insert.cpp` (lines 129-153). -/
def typeValidFor (expectedType : String) (v : Json) : Bool :=
  if expectedType = "int" ∨ expectedType = "integer" then
    match v with | .int _ => true | _ => false
  else if expectedType = "float" ∨ expectedType = "double" ∨ expectedType = "real" then
    match v with | .int _ => true | .float _ => true | _ => false
  else if expectedType = "bool" ∨ expectedType = "boolean" then
    match v with | .bool _ => true | _ => false
  else
    match v with | .str _ => true | _ => false

/-- Per-column value selection and validation (lines 106-163): absent supplied
column appends null (or violates NOT NULL); present column is type-checked
and unique-checked, then appended. -/
def insertOneColumn (cols : List String) (vals : List Json) (c : String)
    (meta : ColMeta) (dataArray : List Json) : Except String (List Json) :=
  match cols.findIdx? (fun x => x = c) with
  | none =>
    if meta.notNull then .error ("Value cannot be null for column: " ++ c)
    else .ok (dataArray ++ [Json.null])
  | some i =>
    let v := vals.getD i Json.null
    let expectedType := strToLower meta.typ
    if v ≠ Json.null ∧ typeValidFor expectedType v = false then
      .error ("Type mismatch for column '" ++ c ++ "': expected " ++ expectedType
        ++ ", got " ++ jsonTypeName v)
    else if meta.isUnique ∧ v ∈ dataArray then
      .error ("Duplicate value for unique column: " ++ c)
    else .ok (dataArray ++ [v])

/-- The staging loop of Insert (the `try` body before the rename loop): read
every schema column in order, validate, append, write the temp file. -/
def insertStage (base : String) (cols : List String) (vals : List Json) :
    TableInfo → FS → List (String × String) →
    Except String Unit × FS × List (String × String)
  | [], fs, staged => (.ok (), fs, staged)
  | (c, meta) :: rest, fs, staged =>
    match fsLookup (colPath base c) fs with
    | none => (.error ("Missing column file: " ++ c), fs, staged)
    | some (.infoFile _) => (.error ("Missing column file: " ++ c), fs, staged)
    | some (.colFile o) =>
      let dataArray := (smapLookup c o).getD []
      match insertOneColumn cols vals c meta dataArray with
      | .error e => (.error e, fs, staged)
      | .ok newArr =>
        insertStage base cols vals rest
          (fsWrite (insTempPath base c) (.colFile (smapInsert c newArr o)) fs)
          (staged ++ [(insTempPath base c, colPath base c)])

/-- `InsertIntoTable::insert`: validations, stage every schema column, commit
all; on any failure after staging begins, remove the staged temps and
propagate. -/
def insertFS (faults : List String) (base : String) (cols : List String)
    (vals : List Json) (fs : FS) : Except String Unit × FS :=
  if !(fsExists base fs) then (.error "Table doesn't exist", fs)
  else
    match fsLookup (infoPath base) fs with
    | none => (.error "Table-info.json not found", fs)
    | some (.colFile _) => (.error "Table-info.json not found", fs)
    | some (.infoFile ti) =>
      if cols.length ≠ vals.length then (.error "Must initialize value for every column", fs)
      else if ti.length < cols.length then (.error "Too many columns", fs)
      else
        match cols.find? (fun c => !(ti.any (fun e => e.1 = c))) with
        | some c => (.error ("Column doesn't exist: " ++ c), fs)
        | none =>
          match insertStage base cols vals ti fs [] with
          | (.error e, fs1, staged) => (.error e, rollbackStaged staged fs1)
          | (.ok _, fs1, staged) =>
            match commitStaged faults staged fs1 with
            | (.ok _, fs2) => (.ok (), fs2)
            | (.error e, fs2) => (.error e, rollbackStaged staged fs2)

/-- POSIX file creation as Insert performs it: `ofstream out(p, ios::trunc)`
with the open left unchecked (insert.cpp lines 166-170).  When a path
component of `p` is an existing regular file the open fails (`ENOTDIR`) and
the stream insertions are silently dropped, leaving the filesystem
unchanged; otherwise the file is created or truncated. -/
def ofstreamWrite (p : String) (d : FileData) (fs : FS) : FS :=
  if fs.any (fun e => List.isPrefixOf (e.1.data ++ ['/']) p.data) then fs
  else fsWrite p d fs

/-- POSIX representability: no file lies strictly under another file's path
(a regular file cannot have children). -/
def posixWF (fs : FS) : Bool :=
  fs.all (fun e1 => fs.all (fun e2 => !(List.isPrefixOf (e1.1.data ++ ['/']) e2.1.data)))

/-- The staging loop of Insert under POSIX semantics: identical to
`insertStage` except that the temp-file write goes through the unchecked
`ofstream` (`ofstreamWrite`).  Because the temp path lies under the
column's `.json` regular file — whose existence the loop has just
checked — these writes never create a file. -/
def insertStagePosix (base : String) (cols : List String) (vals : List Json) :
    TableInfo → FS → List (String × String) →
    Except String Unit × FS × List (String × String)
  | [], fs, staged => (.ok (), fs, staged)
  | (c, meta) :: rest, fs, staged =>
    match fsLookup (colPath base c) fs with
    | none => (.error ("Missing column file: " ++ c), fs, staged)
    | some (.infoFile _) => (.error ("Missing column file: " ++ c), fs, staged)
    | some (.colFile o) =>
      let dataArray := (smapLookup c o).getD []
      match insertOneColumn cols vals c meta dataArray with
      | .error e => (.error e, fs, staged)
      | .ok newArr =>
        insertStagePosix base cols vals rest
          (ofstreamWrite (insTempPath base c) (.colFile (smapInsert c newArr o)) fs)
          (staged ++ [(insTempPath base c, colPath base c)])

/-- `InsertIntoTable::insert` under POSIX filesystem semantics: the same
validations and staged-commit protocol as `insertFS`, with the staging
writes subject to the `ofstream` open failure and the rename loop
(`commitStaged []`) raising whenever a temp file does not exist. -/
def insertFSPosix (base : String) (cols : List String)
    (vals : List Json) (fs : FS) : Except String Unit × FS :=
  if !(fsExists base fs) then (.error "Table doesn't exist", fs)
  else
    match fsLookup (infoPath base) fs with
    | none => (.error "Table-info.json not found", fs)
    | some (.colFile _) => (.error "Table-info.json not found", fs)
    | some (.infoFile ti) =>
      if cols.length ≠ vals.length then (.error "Must initialize value for every column", fs)
      else if ti.length < cols.length then (.error "Too many columns", fs)
      else
        match cols.find? (fun c => !(ti.any (fun e => e.1 = c))) with
        | some c => (.error ("Column doesn't exist: " ++ c), fs)
        | none =>
          match insertStagePosix base cols vals ti fs [] with
          | (.error e, fs1, staged) => (.error e, rollbackStaged staged fs1)
          | (.ok _, fs1, staged) =>
            match commitStaged [] staged fs1 with
            | (.ok _, fs2) => (.ok (), fs2)
            | (.error e, fs2) => (.error e, rollbackStaged staged fs2)

/-! ### Delete (`DeleteRow::deleteRow`) -/

/-- `arr.erase(arr.begin() + i)`. -/
def eraseAt (l : List α) (i : Nat) : List α := l.take i ++ l.drop (i + 1)

/-- The per-column removal loop (out-of-range indices are skipped with a
warning). -/
def applyErase (rows : List Nat) (arr : List Json) : List Json :=
  rows.foldl (fun a r => if r < a.length then eraseAt a r else a) arr

/-- `std::unique`, tail of the scan: drop elements equal to the previous
kept one. -/
def dedupGo (prev : Nat) : List Nat → List Nat
  | [] => []
  | y :: r => if y = prev then dedupGo prev r else y :: dedupGo y r

/-- `std::unique`: drop adjacent duplicates. -/
def dedupAdj : List Nat → List Nat
  | [] => []
  | x :: r => x :: dedupGo x r

/-- Delete's staging loop over every schema column: remove the matched
indices, stage the column if it actually shrank. -/
def deleteStage (base : String) (rows : List Nat) :
    TableInfo → FS → List (String × String) →
    Except String Unit × FS × List (String × String)
  | [], fs, staged => (.ok (), fs, staged)
  | (c, _) :: rest, fs, staged =>
    match fsLookup (colPath base c) fs with
    | none => (.error ("Column file does not exist: " ++ c), fs, staged)
    | some (.infoFile _) =>
      (.error ("Invalid column data: missing key '" ++ c ++ "'"), fs, staged)
    | some (.colFile o) =>
      match smapLookup c o with
      | none => (.error ("Invalid column data: missing key '" ++ c ++ "'"), fs, staged)
      | some arr =>
        let newArr := applyErase rows arr
        if newArr.length < arr.length then
          deleteStage base rows rest
            (fsWrite (tmpPath base c) (.colFile (smapInsert c newArr o)) fs)
            (staged ++ [(tmpPath base c, colPath base c)])
        else deleteStage base rows rest fs staged

/-- `DeleteRow::deleteRow`: parse the condition, collect matching indices on
the condition column, early-return when none match, otherwise remove them
(descending, deduplicated) from every schema column and commit. -/
def deleteFS (base : String) (condStr : String) (fs : FS) : Except String Unit × FS :=
  match parseCondition condStr with
  | .error e => (.error ("Invalid condition: " ++ e), fs)
  | .ok cond =>
    if !(fsExists (base ++ "/Columns") fs) then (.error "Table does not exist.", fs)
    else
      match fsLookup (infoPath base) fs with
      | none => (.error "Failed to open table info file.", fs)
      | some (.colFile _) => (.error "Failed to open table info file.", fs)
      | some (.infoFile ti) =>
        if !(ti.any (fun e => e.1 = cond.column)) then
          (.error ("Column not found in table: " ++ cond.column), fs)
        else
          match fsLookup (colPath base cond.column) fs with
          | none => (.error ("Target column file does not exist: " ++ cond.column), fs)
          | some (.infoFile _) => (.error "Invalid target column data format", fs)
          | some (.colFile o) =>
            match smapLookup cond.column o with
            | none => (.error "Invalid target column data format", fs)
            | some values =>
              let rowsAsc := (List.range values.length).filter
                (fun i => evalCondBool (values.getD i Json.null) cond)
              if rowsAsc = [] then (.ok (), fs)
              else
                let rows := dedupAdj rowsAsc.reverse
                match deleteStage base rows ti fs [] with
                | (.error e, fs1, staged) => (.error e, rollbackStaged staged fs1)
                | (.ok _, fs1, staged) =>
                  match commitStaged [] staged fs1 with
                  | (.ok _, fs2) => (.ok (), fs2)
                  | (.error e, fs2) => (.error e, rollbackStaged staged fs2)

/-! ### Update (`UpdateOperation::updateTable`) -/

/-- The cell-overwrite loop (lines 151-159): positions below both the
column's length and the bitmap's length are overwritten when flagged and
different; the second component reports whether anything changed. -/
def updateCells (newVal : Json) : List Bool → List Json → List Json × Bool
  | _, [] => ([], false)
  | [], vs => (vs, false)
  | b :: bs, v :: vs =>
    let r := updateCells newVal bs vs
    if b && v ≠ newVal then (newVal :: r.1, true) else (v :: r.1, r.2)

/-- The affected-row bitmap: condition column evaluated per row when a
condition is given (evaluation errors count as non-match); else all rows of
the first schema column (silently empty when that read fails or the schema is
empty — `tableInfo.begin()` on an empty map is UB in the source). -/
def affectedBitmap (base : String) (ti : TableInfo) (condStr : String)
    (cond : Condition) (fs : FS) : Except String (List Bool) :=
  if condStr ≠ "" then
    match fsLookup (colPath base cond.column) fs with
    | none => .error ("Condition column not found: " ++ cond.column)
    | some (.infoFile _) => .error "Invalid condition column data format"
    | some (.colFile o) =>
      match smapLookup cond.column o with
      | none => .error "Invalid condition column data format"
      | some condVals => .ok (condVals.map (fun v => evalCondBool v cond))
  else
    match ti with
    | [] => .ok []
    | (c0, _) :: _ =>
      match fsLookup (colPath base c0) fs with
      | some (.colFile o) =>
        (match smapLookup c0 o with
         | some vs => .ok (List.replicate vs.length true)
         | none => .ok [])
      | _ => .ok []

/-- Update's per-set-map-column loop: read, overwrite flagged differing
cells, stage only when something changed.  A failure here exits without
rolling back earlier staged temps (faithful to the source: only the commit
loop has a catch). -/
def updateStage (base : String) (bitmap : List Bool) :
    List (String × Json) → FS → List (String × String) →
    Except String Unit × FS × List (String × String)
  | [], fs, staged => (.ok (), fs, staged)
  | (c, nv) :: rest, fs, staged =>
    match fsLookup (colPath base c) fs with
    | none => (.error ("Column not found: " ++ c), fs, staged)
    | some (.infoFile _) => (.error ("Invalid column data format for: " ++ c), fs, staged)
    | some (.colFile o) =>
      match smapLookup c o with
      | none => (.error ("Invalid column data format for: " ++ c), fs, staged)
      | some vals =>
        let r := updateCells nv bitmap vals
        if r.2 then
          updateStage base bitmap rest
            (fsWrite (tmpPath base c) (.colFile (smapInsert c r.1 o)) fs)
            (staged ++ [(tmpPath base c, colPath base c)])
        else updateStage base bitmap rest fs staged

/-- `UpdateOperation::updateTable`: validations, affected-row bitmap and
count, per-column overwrite/stage, commit, returning the count of
condition-matching rows. -/
def updateFS (base tname : String) (updates : List (String × Json))
    (condStr : String) (fs : FS) : Except String Nat × FS :=
  if !(fsExists (base ++ "/Columns") fs) then
    (.error ("Table does not exist: " ++ tname), fs)
  else
    match (if condStr ≠ "" then
             (parseCondition condStr).mapError (fun e => "Invalid condition: " ++ e)
           else .ok default) with
    | .error e => (.error e, fs)
    | .ok cond =>
      match fsLookup (infoPath base) fs with
      | none => (.error "Failed to open table info file", fs)
      | some (.colFile _) => (.error "Failed to open table info file", fs)
      | some (.infoFile ti) =>
        match updates.find? (fun u => !(ti.any (fun e => e.1 = u.1))) with
        | some u => (.error ("Column not found in table: " ++ u.1), fs)
        | none =>
          match affectedBitmap base ti condStr cond fs with
          | .error e => (.error e, fs)
          | .ok bitmap =>
            let updatedCount := bitmap.count true
            match updateStage base bitmap updates fs [] with
            | (.error e, fs1, _) => (.error e, fs1)
            | (.ok _, fs1, staged) =>
              match commitStaged [] staged fs1 with
              | (.ok _, fs2) => (.ok updatedCount, fs2)
              | (.error e, fs2) =>
                (.error ("Failed to apply updates: " ++ e), rollbackStaged staged fs2)

/-! ### Select wrapper (`Selection::selectFromTable`, lines 60-96) -/

/-- `loadColumn(path)[col]` as a sequence (`null`/missing key reads as the
empty array). -/
def loadColVals (base c : String) (fs : FS) : Except String (List Json) :=
  match fsLookup (colPath base c) fs with
  | none => .error ("Failed to open column file: " ++ colPath base c)
  | some (.colFile o) => .ok ((smapLookup c o).getD [])
  | some (.infoFile _) => .ok []

/-- Load the requested columns left to right into the `std::map`. -/
def loadColumns (base : String) (fs : FS) :
    List String → List (String × List Json) → Except String (List (String × List Json))
  | [], acc => .ok acc
  | c :: rest, acc =>
    match loadColVals base c fs with
    | .error e => .error e
    | .ok vs => loadColumns base fs rest (smapInsert c vs acc)

/-- `Selection::selectFromTable`: existence and projection validation, load
the **selected** columns (plus the ORDER BY column), then run the pure
pipeline `selectCore`. -/
def selectFS (base : String) (columns : List String)
    (whereCond : Option (JsonObj → Bool)) (orderBy : String) (asc : Bool)
    (lim : Option Nat) (off : Nat) (fs : FS) : Except String (List JsonObj) :=
  if !(fsExists base fs && fsExists (infoPath base) fs) then .error "Table doesn't exist"
  else
    match fsLookup (infoPath base) fs with
    | none => .error "Table-info.json not found"
    | some (.colFile _) => .error "Table-info.json not found"
    | some (.infoFile ti) =>
      let allColumns := ti.map Prod.fst
      let selectedColumns := if columns.isEmpty then allColumns else columns
      match selectedColumns.find? (fun c => !(allColumns.contains c)) with
      | some c => .error ("Column doesn't exist: " ++ c)
      | none =>
        match loadColumns base fs selectedColumns [] with
        | .error e => .error e
        | .ok cd0 =>
          match (if orderBy ≠ "" ∧ smapLookup orderBy cd0 = none then
                   (loadColVals base orderBy fs).map (fun vs => smapInsert orderBy vs cd0)
                 else .ok cd0) with
          | .error e => .error e
          | .ok columnData =>
            .ok (selectCore columnData selectedColumns whereCond orderBy asc lim off)

/-! ### Definitions modelled from the spec's words (for comparison with the
source-derived definitions above) -/

/-- Modelled from the spec (§4.1): the uniform numeric-first/text-fallback
comparison — float64 when either canonical text contains `'.'`, else int64
when both parse, else lexicographic text. -/
def specNumericFirstCmp (a b : String) : Ordering :=
  let textCmp : Ordering :=
    if clLt a.data b.data then .lt else if clLt b.data a.data then .gt else .eq
  if a.data.contains '.' || b.data.contains '.' then
    match stodOpt a, stodOpt b with
    | some x, some y => if x < y then .lt else if y < x then .gt else .eq
    | _, _ => textCmp
  else
    match stollOpt a, stollOpt b with
    | some x, some y => if x < y then .lt else if y < x then .gt else .eq
    | _, _ => textCmp

/-- Modelled from the spec (§4.1): "This numeric-first, text-fallback rule is
used uniformly by `=`,`!=`,`>`,`<`,`>=`,`<=`". -/
def specApplyOp (op : String) (a b : String) : Bool :=
  let c := specNumericFirstCmp a b
  if op = "=" then c = Ordering.eq
  else if op = "!=" then c ≠ Ordering.eq
  else if op = ">" then c = Ordering.gt
  else if op = "<" then c = Ordering.lt
  else if op = ">=" then c ≠ Ordering.lt
  else if op = "<=" then c ≠ Ordering.gt
  else false

/-- Modelled from the spec (§4.3 LIKE): `%` → any sequence, `_` → any single
character, and **all other** regular-expression metacharacters escaped, so a
literal `*` matches only itself. -/
def specLikeCompile : List Char → List (LikeTok × Bool)
  | [] => []
  | c :: rest =>
    if c = '%' then (LikeTok.dot, true) :: specLikeCompile rest
    else if c = '_' then (LikeTok.dot, false) :: specLikeCompile rest
    else (LikeTok.chr c, false) :: specLikeCompile rest

/-- Modelled from the spec: case-insensitive full match of the spec's LIKE
translation. -/
def specLikeMatch (fieldValue pattern : String) : Bool :=
  likeMatch (specLikeCompile pattern.data) fieldValue.data

/-- Modelled from the spec (§4.4 Select): the comparator of the mandated
stable sort — §4.1 comparison of the order column's canonical texts. -/
def specOrderComp (ovals : List Json) (asc : Bool) (a b : Nat) : Bool :=
  let ca := canonicalJson (ovals.getD a Json.null)
  let cb := canonicalJson (ovals.getD b Json.null)
  if asc then specNumericFirstCmp ca cb = Ordering.lt
  else specNumericFirstCmp ca cb = Ordering.gt

/-- Modelled from the spec (§4.4 Select): "Build an index permutation over
`[0, rowCount)`; if `orderBy` given, stably sort by that column's values
using §4.1 comparison (ties preserve original order)". -/
def specOrderIndices (ovals : List Json) (asc : Bool) (n : Nat) : List Nat :=
  sortBy (specOrderComp ovals asc) (List.range n)

/-! ### The `==` normalization done by the DELETE/UPDATE statement paths
(`parser.cpp` lines 299-303 and 486-491): replace every `==` with `=`,
resuming the search just after the replacement. -/

def replaceDoubleEq : List Char → List Char
  | '=' :: '=' :: rest => '=' :: replaceDoubleEq rest
  | c :: rest => c :: replaceDoubleEq rest
  | [] => []

/-- The DELETE/UPDATE condition normalization restricted to the `==`
replacement (the statement paths also re-space operators, which is identity
on already-spaced input). -/
def normalizeEq (s : String) : String := ⟨replaceDoubleEq s.data⟩

/-! ### Concrete scenarios -/

/-- A select-root table directory (`<cwd>/Databases/db/t` with cwd `/w`). -/
def selBase : String := selectBasePath "/w" "db" "t"

/-- Two-column table `(a TEXT, b int)` holding the single row `(a "x", b 5)`,
under the select/update root. -/
def fsRowAB : FS :=
  [(infoPath selBase, FileData.infoFile
      [("a", ⟨"TEXT", false, false⟩), ("b", ⟨"int", false, false⟩)]),
   (colPath selBase "a", FileData.colFile [("a", [Json.str "x"])]),
   (colPath selBase "b", FileData.colFile [("b", [Json.int 5])])]

/-- One-column table `(k TEXT)` holding the rows `"10"`, `"9"`, under the
select root. -/
def fsOrderK : FS :=
  [(infoPath selBase, FileData.infoFile [("k", ⟨"TEXT", false, false⟩)]),
   (colPath selBase "k", FileData.colFile [("k", [Json.str "10", Json.str "9"])])]

/-- The insert/delete-root base (`$HOME/.mashdb/databases/db/t` with HOME
`/home/u`). -/
def insBase : String := insertBasePath "/home/u" "db" "t"

/-- Empty two-column table `(a TEXT, b int)` under the insert/delete root —
where the table-creation collaborator actually creates it. -/
def fsEmptyAB : FS :=
  [(infoPath insBase, FileData.infoFile
      [("a", ⟨"TEXT", false, false⟩), ("b", ⟨"int", false, false⟩)]),
   (colPath insBase "a", FileData.colFile [("a", [])]),
   (colPath insBase "b", FileData.colFile [("b", [])])]

/-- Two-column, two-row table under the insert/delete root. -/
def fsTwoRows : FS :=
  [(infoPath insBase, FileData.infoFile
      [("a", ⟨"TEXT", false, false⟩), ("b", ⟨"int", false, false⟩)]),
   (colPath insBase "a", FileData.colFile [("a", [Json.str "x", Json.str "y"])]),
   (colPath insBase "b", FileData.colFile [("b", [Json.int 1, Json.int 2])])]

/-- Table `(x int, y int)` with columns of **unequal** lengths
(`x` has 3 entries, `y` has 2), under the select/update root. -/
def fsUneven : FS :=
  [(infoPath selBase, FileData.infoFile
      [("x", ⟨"int", false, false⟩), ("y", ⟨"int", false, false⟩)]),
   (colPath selBase "x", FileData.colFile [("x", [Json.int 0, Json.int 1, Json.int 0])]),
   (colPath selBase "y", FileData.colFile [("y", [Json.int 1, Json.int 10])])]
/-- The stored sequence of a column file (empty when missing/malformed). -/
def colValsFS (fs : FS) (base c : String) : List Json :=
  match fsLookup (colPath base c) fs with
  | some (.colFile o) => (smapLookup c o).getD []
  | _ => []

/-- Whether Update would rewrite at least one cell of this set-map column
(w.r.t. the pre-call filesystem). -/
def updChanged (base : String) (bitmap : List Bool) (fs : FS) (u : String × Json) : Bool :=
  match fsLookup (colPath base u.1) fs with
  | some (.colFile o) =>
    (match smapLookup u.1 o with
     | some vals => (updateCells u.2 bitmap vals).2
     | none => false)
  | _ => false


/-! ### Helper lemmas -/

theorem clLt_asymm : ∀ a b : List Char, clLt a b = true → clLt b a = false := by
  intro a
  induction a with
  | nil => intro b h; cases b <;> simp_all [clLt]
  | cons x xs ih =>
    intro b h
    cases b with
    | nil => simp [clLt] at h
    | cons y ys =>
      simp only [clLt] at h ⊢
      by_cases h1 : x.toNat < y.toNat
      · have : ¬ y.toNat < x.toNat := by omega
        simp [h1, this]
      · by_cases h2 : y.toNat < x.toNat
        · simp [h1, h2] at h
        · simp only [if_neg h1, if_neg h2] at h ⊢
          exact ih ys h

theorem clLt_negtrans : ∀ a b c : List Char,
    clLt c a = true → clLt c b = true ∨ clLt b a = true := by
  intro a
  induction a with
  | nil =>
    intro b c h
    cases c <;> simp [clLt] at h
  | cons x xs ih =>
    intro b c h
    cases c with
    | nil =>
      cases b
      · right; simp [clLt]
      · left; simp [clLt]
    | cons z zs =>
      cases b with
      | nil => right; simp [clLt]
      | cons y ys =>
        simp only [clLt] at h ⊢
        by_cases hzx : z.toNat < x.toNat
        · -- head strictly smaller
          by_cases hzy : z.toNat < y.toNat
          · left; simp [hzy]
          · by_cases hyz : y.toNat < z.toNat
            · right
              have : y.toNat < x.toNat := by omega
              simp [this]
            · right
              have hne : ¬ x.toNat < y.toNat := by omega
              have : y.toNat < x.toNat := by omega
              simp [this]
        · by_cases hxz : x.toNat < z.toNat
          · simp [hzx, hxz] at h
          · -- heads equal
            have hzx' : z.toNat = x.toNat := by omega
            simp only [if_neg hzx, if_neg hxz] at h
            by_cases hzy : z.toNat < y.toNat
            · left; simp [hzy]
            · by_cases hyz : y.toNat < z.toNat
              · right
                have : y.toNat < x.toNat := by omega
                have hne : ¬ x.toNat < y.toNat := by omega
                simp [this, hne]
              · -- all three heads equal
                rcases ih ys zs h with h1 | h1
                · left; simp [hzy, hyz, h1]
                · right
                  have h1' : ¬ x.toNat < y.toNat := by omega
                  have h2' : ¬ y.toNat < x.toNat := by omega
                  simp [h1', h2', h1]

theorem clLt_false_trans {a b c : List Char}
    (h1 : clLt b a = false) (h2 : clLt c b = false) : clLt c a = false := by
  cases h : clLt c a
  · rfl
  · rcases clLt_negtrans a b c h with h' | h' <;> simp_all

theorem jsonLt_asymm (a b : Json) (h : jsonLt a b = true) : jsonLt b a = false := by
  cases a <;> cases b <;>
    simp_all [jsonLt, jsonRank, strLt] <;>
    first
      | omega
      | linarith
      | (exact clLt_asymm _ _ h)

theorem jsonLe_trans (a b c : Json)
    (h1 : jsonLt b a = false) (h2 : jsonLt c b = false) : jsonLt c a = false := by
  cases a <;> cases b <;> cases c <;>
    simp_all [jsonLt, jsonRank, strLt, not_lt] <;>
    first
      | omega
      | linarith
      | (exact clLt_false_trans ‹_› ‹_›)
      | (exact le_trans ‹_› ‹_›)
      | (exact_mod_cast le_trans ‹_› ‹_›)
      | (qify at *; linarith)

theorem mem_insBy (comp : α → α → Bool) (x z : α) :
    ∀ l : List α, z ∈ insBy comp x l → z = x ∨ z ∈ l := by
  intro l
  induction l with
  | nil => intro h; simpa [insBy] using h
  | cons y ys ih =>
    intro h
    by_cases hc : comp x y = true
    · simp only [insBy, if_pos hc] at h
      rcases List.mem_cons.mp h with rfl | h
      · exact Or.inl rfl
      · exact Or.inr h
    · simp only [insBy, if_neg hc] at h
      rcases List.mem_cons.mp h with rfl | h
      · exact Or.inr (List.mem_cons_self _ _)
      · rcases ih h with h' | h'
        · exact Or.inl h'
        · exact Or.inr (List.mem_cons_of_mem _ h')

theorem insBy_pairwise (comp : α → α → Bool)
    (hasym : ∀ x y, comp x y = true → comp y x = false)
    (htrans : ∀ x y z, comp y x = false → comp z y = false → comp z x = false)
    (x : α) :
    ∀ l : List α, l.Pairwise (fun a b => comp b a = false) →
      (insBy comp x l).Pairwise (fun a b => comp b a = false) := by
  intro l
  induction l with
  | nil => intro _; simp [insBy]
  | cons y ys ih =>
    intro hp
    rw [List.pairwise_cons] at hp
    obtain ⟨hy, hys⟩ := hp
    by_cases hc : comp x y = true
    · simp only [insBy, if_pos hc]
      refine List.Pairwise.cons ?_ (List.Pairwise.cons hy hys)
      intro z hz
      rcases List.mem_cons.mp hz with h1 | hz
      · rw [h1]; exact hasym x y hc
      · exact htrans x y z (hasym x y hc) (hy z hz)
    · have hc' : comp x y = false := by simpa using hc
      simp only [insBy, if_neg hc]
      refine List.Pairwise.cons ?_ (ih hys)
      intro z hz
      rcases mem_insBy comp x z ys hz with h1 | hz
      · rw [h1]; exact hc'
      · exact hy z hz

theorem sortBy_pairwise (comp : α → α → Bool)
    (hasym : ∀ x y, comp x y = true → comp y x = false)
    (htrans : ∀ x y z, comp y x = false → comp z y = false → comp z x = false)
    (l : List α) :
    (sortBy comp l).Pairwise (fun a b => comp b a = false) := by
  have main : ∀ (l : List α) (acc : List α),
      acc.Pairwise (fun a b => comp b a = false) →
      (l.foldl (fun acc x => insBy comp x acc) acc).Pairwise (fun a b => comp b a = false) := by
    intro l
    induction l with
    | nil => intro acc h; simpa using h
    | cons x xs ih =>
      intro acc h
      exact ih _ (insBy_pairwise comp hasym htrans x acc h)
  exact main l [] (by simp)

theorem likeCompile_no_star (l : List Char) :
    ∀ acc, '*' ∉ l → likeCompile l acc = some (acc ++ specLikeCompile l) := by
  induction l with
  | nil => intro acc _; simp [likeCompile, specLikeCompile]
  | cons c rest ih =>
    intro acc h
    have hc : c ≠ '*' := fun hc => h (hc ▸ List.mem_cons_self c rest)
    have hrest : '*' ∉ rest := fun hr => h (List.mem_cons_of_mem c hr)
    by_cases h1 : c = '%'
    · subst h1
      simp only [likeCompile, specLikeCompile, if_pos rfl]
      rw [ih _ hrest]
      simp
    · by_cases h2 : c = '_'
      · subst h2
        have e1 : likeCompile ('_' :: rest) acc
            = likeCompile rest (acc ++ [(LikeTok.dot, false)]) := rfl
        have e2 : specLikeCompile ('_' :: rest)
            = (LikeTok.dot, false) :: specLikeCompile rest := rfl
        rw [e1, e2, ih _ hrest]
        simp
      · simp only [likeCompile, specLikeCompile, if_neg h1, if_neg h2, if_neg hc]
        rw [ih _ hrest]
        simp

/-! ### C6 -/

/-- C6 counterexample: `'01'` and `'1'` both parse as `int64` with equal
values, so the claimed uniform §4.1 rule makes `=` hold; the engine's `=`
compares trimmed text and returns `false` (and `>=` is likewise false). -/
theorem C6_counterexample :
    evaluateCondition (Json.str "01") ⟨"c", "=", "1"⟩ = .ok false ∧
    evaluateCondition (Json.str "01") ⟨"c", ">=", "1"⟩ = .ok false ∧
    stollOpt "01" = some 1 ∧ stollOpt "1" = some 1 ∧
    specApplyOp "=" "01" "1" = true ∧ specApplyOp ">=" "01" "1" = true := by
  refine ⟨rfl, rfl, by decide, by decide, by decide, by decide⟩

/-- C6 amended: only `>` and `<` use the numeric-first/text-fallback rule;
`=` compares trimmed canonical text (with the NULL special case), `!=` is its
negation, and `>=`/`<=` hold iff the text-equality or the strict numeric
comparison holds — so `=` and `>=` reject numerically equal but textually
different operands such as `'01'` and `'1'`. -/
theorem C6_amended : ∀ (v : Json) (col lit : String),
    evaluateCondition v ⟨col, "=", lit⟩
      = .ok (compareEqual (canonicalJson v) (stripQuotes lit)) ∧
    evaluateCondition v ⟨col, "!=", lit⟩
      = .ok (!compareEqual (canonicalJson v) (stripQuotes lit)) ∧
    evaluateCondition v ⟨col, ">=", lit⟩
      = .ok (compareEqual (canonicalJson v) (stripQuotes lit)
          || compareGreaterThan (canonicalJson v) (stripQuotes lit)) ∧
    evaluateCondition v ⟨col, "<=", lit⟩
      = .ok (compareEqual (canonicalJson v) (stripQuotes lit)
          || compareLessThan (canonicalJson v) (stripQuotes lit)) ∧
    compareEqual "01" "1" = false := by
  intro v col lit
  exact ⟨rfl, rfl, rfl, rfl, by decide⟩

/-! ### C7 -/

/-- C7 counterexample: the condition grammar accepts `a == 5` but stores the
operator as `==` unchanged; evaluating it throws UnsupportedOperator, which
the SELECT WHERE wrapper turns into a non-match — unlike the same condition
written with `=`. -/
theorem C7_counterexample :
    parseCondition "a == 5" = .ok ⟨"a", "==", "5"⟩ ∧
    evaluateCondition (Json.int 5) ⟨"a", "==", "5"⟩ = .error "Unsupported operator: ==" ∧
    parserWhere ⟨"a", "==", "5"⟩ [("a", Json.int 5)] = false ∧
    parserWhere ⟨"a", "=", "5"⟩ [("a", Json.int 5)] = true := by
  refine ⟨rfl, rfl, by decide, by decide⟩

/-- C7 amended: `parseCondition` stores `==` unnormalized; evaluating any
such condition raises UnsupportedOperator, and the SELECT WHERE wrapper
treats every row as non-matching.  Only the DELETE/UPDATE statement paths
rewrite `==` to `=` (on the raw condition text) before parsing. -/
theorem C7_amended : ∀ (v : Json) (cond : Condition), cond.op = "==" →
    evaluateCondition v cond = .error "Unsupported operator: ==" ∧
    (∀ row : JsonObj, parserWhere cond row = false) ∧
    normalizeEq "a == 5" = "a = 5" := by
  intro v cond hop
  obtain ⟨col, op, val⟩ := cond
  simp only at hop
  subst hop
  refine ⟨rfl, ?_, by decide⟩
  intro row
  simp only [parserWhere]
  cases smapLookup col row with
  | none => rfl
  | some w => simp [evalCondBool, evaluateCondition]; rfl

/-- C7 amended witness. -/
theorem C7_amended_witness :
    evaluateCondition (Json.int 7) ⟨"a", "==", "7"⟩ = .error "Unsupported operator: ==" ∧
    parserWhere ⟨"a", "==", "7"⟩ [("a", Json.int 7)] = false := by
  obtain ⟨h1, h2, _⟩ := C7_amended (Json.int 7) ⟨"a", "==", "7"⟩ rfl
  exact ⟨h1, h2 _⟩

/-! ### C8 -/

/-- C8 counterexample: the translation escapes every metacharacter except
`'*'`, so a literal `*` acts as a regex quantifier: the engine's
`LIKE 'x*'` matches `"xxx"`, while the claim's translation (all
metacharacters escaped) matches only the literal text `x*`. -/
theorem C8_counterexample :
    compareLike "xxx" "x*" = true ∧
    specLikeMatch "xxx" "x*" = false ∧
    specLikeMatch "x*" "x*" = true := by
  refine ⟨by decide, by decide, by decide⟩

/-- C8 amended: for patterns containing no `'*'` the engine's translation
agrees with the spec's (every metacharacter escaped, `%` → any sequence,
`_` → any single character, case-insensitive full match); a literal `'*'` is
instead passed through as a regex quantifier. -/
theorem C8_amended (pattern fieldValue : String) (h : '*' ∉ pattern.data) :
    compareLike fieldValue pattern = specLikeMatch fieldValue pattern := by
  simp only [compareLike, specLikeMatch, likeCompile_no_star pattern.data [] h,
    List.nil_append]

/-- C8 amended witness: the spec's own `Jo%` example, through the engine. -/
theorem C8_amended_witness :
    compareLike "John" "Jo%" = specLikeMatch "John" "Jo%" ∧
    compareLike "John" "Jo%" = true ∧
    compareLike "Joanna" "Jo%" = true ∧
    compareLike "Mike" "Jo%" = false := by
  refine ⟨C8_amended "Jo%" "John" (by decide), by decide, by decide, by decide⟩

/-! ### C5 -/

/-- C5 counterexample: on stored texts `"10"`, `"9"` the engine sorts with
nlohmann `operator<` (lexicographic for strings: `"10" < "9"`), emitting
`"10"` before `"9"`; the §4.1 stable sort of the claim parses both as int64
and puts index 1 (`"9"`) first. -/
theorem C5_counterexample :
    selectFS selBase [] none "k" true none 0 fsOrderK
      = .ok [[("k", Json.str "10")], [("k", Json.str "9")]] ∧
    specOrderIndices [Json.str "10", Json.str "9"] true 2 = [1, 0] ∧
    strLt "10" "9" = true ∧
    stollOpt "9" = some 9 ∧ stollOpt "10" = some 10 := by
  refine ⟨rfl, by decide, by decide, by decide, by decide⟩

/-- C5 amended: with ORDER BY ascending, the emitted indices are
non-decreasing under nlohmann's `operator<` on the order column's values
(not under the §4.1 text comparison); tie order is whatever `std::sort`
produces (unspecified; stable order is the execution modelled here, and on
tie-free inputs every execution agrees). -/
theorem C5_amended (columnData : List (String × List Json)) (orderBy : String)
    (whereCond : Option (JsonObj → Bool)) (lim : Option Nat) (off : Nat)
    (h : orderBy ≠ "") :
    (selectCoreIndices columnData whereCond orderBy true lim off).Pairwise
      (fun i j => jsonLe (((smapLookup orderBy columnData).getD []).getD i Json.null)
        (((smapLookup orderBy columnData).getD []).getD j Json.null) = true) := by
  set ovals := (smapLookup orderBy columnData).getD [] with hovals
  have hsorted : (selectSortedIndices columnData orderBy true).Pairwise
      (fun a b => selectOrderComp ovals true b a = false) := by
    rw [selectSortedIndices, if_neg h]
    refine sortBy_pairwise _ ?_ ?_ _
    · intro x y hxy
      simp only [selectOrderComp, if_pos trivial] at hxy ⊢
      exact jsonLt_asymm _ _ hxy
    · intro x y z h1 h2
      simp only [selectOrderComp, if_pos trivial] at h1 h2 ⊢
      exact jsonLe_trans _ _ _ h1 h2
  have hrel : ∀ a b : Nat, selectOrderComp ovals true b a = false →
      jsonLe (ovals.getD a Json.null) (ovals.getD b Json.null) = true := by
    intro a b hab
    simp only [selectOrderComp, if_pos trivial] at hab
    simp only [jsonLe, hab, Bool.not_false]
  have hsorted' : (selectSortedIndices columnData orderBy true).Pairwise
      (fun i j => jsonLe (ovals.getD i Json.null) (ovals.getD j Json.null) = true) :=
    hsorted.imp (fun hab => hrel _ _ hab)
  have hsub : (selectCoreIndices columnData whereCond orderBy true lim off).Sublist
      (selectSortedIndices columnData orderBy true) := by
    rw [selectCoreIndices]
    set pass : Nat → Bool := fun i =>
      match whereCond with
      | none => true
      | some f => f (selectRowData columnData i) with hpass
    have s1 : ((selectSortedIndices columnData orderBy true).filter pass).Sublist
        (selectSortedIndices columnData orderBy true) := List.filter_sublist _
    have s2 : (((selectSortedIndices columnData orderBy true).filter pass).drop off).Sublist
        ((selectSortedIndices columnData orderBy true).filter pass) := List.drop_sublist _ _
    have s3 : (takeOpt lim (((selectSortedIndices columnData orderBy true).filter pass).drop
        off)).Sublist
        (((selectSortedIndices columnData orderBy true).filter pass).drop off) := by
      cases lim with
      | none => exact List.Sublist.refl _
      | some n => exact List.take_sublist n _
    exact s3.trans (s2.trans s1)
  exact hsorted'.sublist hsub

/-- C5 amended witness. -/
theorem C5_amended_witness :
    (selectCoreIndices [("k", [Json.str "10", Json.str "9"])] none "k" true none 0).Pairwise
      (fun i j => jsonLe (((smapLookup "k" [("k", [Json.str "10", Json.str "9"])]).getD
        []).getD i Json.null)
        (((smapLookup "k" [("k", [Json.str "10", Json.str "9"])]).getD []).getD j Json.null)
        = true) :=
  C5_amended [("k", [Json.str "10", Json.str "9"])] "k" none none 0 (by decide)

/-! ### C4 -/

/-- C4: Insert persists the row under `$HOME/.mashdb/databases/...` while
SELECT reads `<cwd>/Databases/...`; after a successful (modelled) insert of
`(a "x", b 5)` into the table the creation collaborator made under the HOME
root, the claimed `SELECT * FROM t WHERE a = 'x'` fails with "Table doesn't
exist" instead of returning the row.  (On a real POSIX filesystem the insert
itself already fails at commit: its temp path `<col>.json/.tmp` lies *under*
the column file.) -/
theorem C4_roundtrip_broken :
    (insertFS [] insBase ["a", "b"] [Json.str "x", Json.int 5] fsEmptyAB).1 = .ok () ∧
    colLenFS (insertFS [] insBase ["a", "b"] [Json.str "x", Json.int 5] fsEmptyAB).2
      insBase "a" = 1 ∧
    selectFS (selectBasePath "/w" "db" "t") []
      (some (parserWhere ⟨"a", "=", "'x'"⟩)) "" true none 0
      (insertFS [] insBase ["a", "b"] [Json.str "x", Json.int 5] fsEmptyAB).2
      = .error "Table doesn't exist" := by
  refine ⟨rfl, rfl, rfl⟩

/-! ### C1 -/

theorem smapLookup_insert (k k' : String) (v : α) :
    ∀ m : List (String × α),
      smapLookup k (smapInsert k' v m) = if k = k' then some v else smapLookup k m := by
  intro m
  induction m with
  | nil => by_cases h : k = k' <;> simp [smapInsert, smapLookup, h]
  | cons p rest ih =>
    obtain ⟨q, w⟩ := p
    by_cases h1 : k' = q
    · subst h1
      by_cases h2 : k = k' <;> simp [smapInsert, smapLookup, h2]
    · simp only [smapInsert, if_neg h1]
      by_cases h3 : strLt k' q
      · by_cases h2 : k = k'
        · subst h2; simp [smapLookup, h3, h1]
        · simp [smapLookup, h3, h2]
      · by_cases h4 : k = q
        · subst h4
          have hkk : k ≠ k' := fun h => h1 h.symm
          simp [smapLookup, h3, hkk]
        · simp [smapLookup, h3, h4, ih]

theorem smapLookup_map_none (k : String) (g : String × β → α)
    (m : List (String × β)) (h : smapLookup k m = none) :
    smapLookup k (m.map (fun p => (p.1, g p))) = none := by
  induction m with
  | nil => simp [smapLookup]
  | cons p rest ih =>
    simp only [smapLookup, List.map_cons] at h ⊢
    by_cases h1 : k = p.1
    · simp [h1] at h
    · simp only [if_neg h1] at h ⊢
      exact ih h

theorem loadColumns_lookup_none (base : String) (fs : FS) (q : String) :
    ∀ (cs : List String) (acc : List (String × List Json)) (cd : List (String × List Json)),
      q ∉ cs → smapLookup q acc = none →
      loadColumns base fs cs acc = .ok cd → smapLookup q cd = none := by
  intro cs
  induction cs with
  | nil =>
    intro acc cd _ hacc hok
    simp only [loadColumns] at hok
    cases hok
    exact hacc
  | cons c rest ih =>
    intro acc cd hmem hacc hok
    have hqc : q ≠ c := fun h => hmem (h ▸ List.mem_cons_self c rest)
    have hrest : q ∉ rest := fun h => hmem (List.mem_cons_of_mem c h)
    simp only [loadColumns] at hok
    cases hl : loadColVals base c fs with
    | error e => rw [hl] at hok; cases hok
    | ok vs =>
      rw [hl] at hok
      refine ih _ _ hrest ?_ hok
      rw [smapLookup_insert, if_neg hqc]
      exact hacc

/-- Emitted rows are empty when the WHERE lambda's column is not among the
loaded columns. -/
theorem selectCore_missing_col (columnData : List (String × List Json))
    (sel : List String) (cond : Condition) (orderBy : String) (asc : Bool)
    (lim : Option Nat) (off : Nat)
    (hnone : smapLookup cond.column columnData = none) :
    selectCore columnData sel (some (parserWhere cond)) orderBy asc lim off = [] := by
  have hpass : ∀ i, parserWhere cond (selectRowData columnData i) = false := by
    intro i
    rw [parserWhere, selectRowData, smapLookup_map_none _ _ _ hnone]
  rw [selectCore, selectCoreIndices]
  have hfil : (selectSortedIndices columnData orderBy asc).filter
      (fun i => parserWhere cond (selectRowData columnData i)) = [] := by
    rw [List.filter_eq_nil_iff]
    intro a _
    simp [hpass a]
  simp only [hfil, List.drop_nil]
  cases lim <;> simp [takeOpt]

/-- C1 counterexample: on the one-row table `(a "x", b 5)`,
`SELECT a FROM t WHERE b = 5` returns **no** rows (the engine loads only the
projected column `a`, so the predicate on `b` sees a missing column and every
row is excluded), although the row satisfies the predicate — as `SELECT *`
with the same predicate shows. -/
theorem C1_counterexample :
    selectFS selBase ["a"] (some (parserWhere ⟨"b", "=", "5"⟩)) "" true none 0 fsRowAB
      = .ok [] ∧
    evaluateCondition (Json.int 5) ⟨"b", "=", "5"⟩ = .ok true ∧
    selectFS selBase [] (some (parserWhere ⟨"b", "=", "5"⟩)) "" true none 0 fsRowAB
      = .ok [[("a", Json.str "x"), ("b", Json.int 5)]] := by
  refine ⟨rfl, rfl, rfl⟩

/-- C1 amended: the engine loads only the projected columns plus the ORDER BY
column; a WHERE predicate whose column is outside that set evaluates to
`false` on every row (missing-column errors are treated as non-match), so
such a SELECT returns zero rows regardless of the data. -/
theorem C1_amended (base : String) (columns : List String) (cond : Condition)
    (orderBy : String) (asc : Bool) (lim : Option Nat) (off : Nat) (fs : FS)
    (rows : List JsonObj)
    (hproj : columns ≠ []) (hc1 : cond.column ∉ columns) (hc2 : cond.column ≠ orderBy)
    (hok : selectFS base columns (some (parserWhere cond)) orderBy asc lim off fs
      = .ok rows) :
    rows = [] := by
  rw [selectFS] at hok
  split at hok
  · simp at hok
  · split at hok
    · simp at hok
    · simp at hok
    · rename_i ti heqinfo
      have hne : columns.isEmpty = false := by
        cases columns with
        | nil => exact absurd rfl hproj
        | cons c cs => rfl
      rw [hne] at hok
      simp only [Bool.false_eq_true, if_false] at hok
      split at hok
      · simp at hok
      · split at hok
        · simp at hok
        · rename_i cd0 heqload
          split at hok
          · simp at hok
          · rename_i columnData heqcd
            have hnone : smapLookup cond.column columnData = none := by
              have hcd0 : smapLookup cond.column cd0 = none :=
                loadColumns_lookup_none base fs cond.column columns [] cd0 hc1 rfl heqload
              by_cases hif : orderBy ≠ "" ∧ smapLookup orderBy cd0 = none
              · rw [if_pos hif] at heqcd
                cases hlv : loadColVals base orderBy fs with
                | error e => rw [hlv] at heqcd; cases heqcd
                | ok vs =>
                  rw [hlv] at heqcd
                  simp only [Except.map] at heqcd
                  cases heqcd
                  rw [smapLookup_insert, if_neg hc2]
                  exact hcd0
              · rw [if_neg hif] at heqcd
                cases heqcd
                exact hcd0
            cases hok
            exact selectCore_missing_col columnData columns cond orderBy asc lim off hnone

/-- C1 amended witness: projecting `b` away while filtering on `b`. -/
theorem C1_amended_witness :
    ([] : List JsonObj) = [] ∧
    selectFS selBase ["a"] (some (parserWhere ⟨"b", "=", "5"⟩)) "" true none 0 fsRowAB
      = .ok [] :=
  ⟨C1_amended selBase ["a"] ⟨"b", "=", "5"⟩ "" true none 0 fsRowAB []
    (by decide) (by decide) (by decide) rfl, rfl⟩

/-! ### Filesystem and path lemmas -/

theorem fsLookup_write (p q : String) (d : FileData) :
    ∀ fs : FS, fsLookup p (fsWrite q d fs) = if p = q then some d else fsLookup p fs := by
  intro fs
  induction fs with
  | nil => by_cases h : p = q <;> simp [fsWrite, fsLookup, h]
  | cons e rest ih =>
    obtain ⟨r, x⟩ := e
    by_cases h1 : q = r
    · subst h1
      by_cases h2 : p = q <;> simp [fsWrite, fsLookup, h2]
    · by_cases h2 : p = r
      · subst h2
        have : p ≠ q := fun h => h1 h.symm
        simp [fsWrite, fsLookup, h1, this]
      · simp [fsWrite, fsLookup, h1, h2, ih]

theorem fsLookup_erase (p q : String) :
    ∀ fs : FS, fsLookup p (fsErase q fs) = if p = q then none else fsLookup p fs := by
  intro fs
  induction fs with
  | nil => by_cases h : p = q <;> simp [fsErase, fsLookup, h]
  | cons e rest ih =>
    obtain ⟨r, x⟩ := e
    by_cases h1 : q = r
    · subst h1
      have e1 : fsErase q ((q, x) :: rest) = fsErase q rest := by simp [fsErase]
      rw [e1, ih]
      by_cases h2 : p = q
      · simp [h2]
      · simp [fsLookup, h2]
    · by_cases h2 : p = r
      · subst h2
        have : p ≠ q := fun h => h1 h.symm
        simp [fsErase, fsLookup, h1, this]
      · simp [fsErase, fsLookup, h1, h2, ih]

theorem rollbackStaged_lookup (p : String) :
    ∀ (staged : List (String × String)) (fs : FS),
      fsLookup p (rollbackStaged staged fs)
        = if p ∈ staged.map Prod.fst then none else fsLookup p fs := by
  intro staged
  induction staged with
  | nil => intro fs; simp [rollbackStaged]
  | cons pr rest ih =>
    intro fs
    obtain ⟨t, f⟩ := pr
    by_cases h1 : p = t
    · subst h1
      simp [rollbackStaged, ih, fsLookup_erase]
    · simp only [rollbackStaged, ih, fsLookup_erase, if_neg h1]
      by_cases h2 : p ∈ List.map Prod.fst rest
      · simp [h2, List.mem_cons]
      · simp [h2, List.mem_cons, h1]

theorem strData_inj {s t : String} (h : s.data = t.data) : s = t := by
  cases s with
  | mk d1 =>
    cases t with
    | mk d2 => exact congrArg String.mk h

theorem strAppend_last (s t : String) (h : t.data ≠ []) :
    (s ++ t).data.getLast? = t.data.getLast? := by
  rw [String.data_append]
  exact List.getLast?_append_of_ne_nil _ h

theorem colPath_last (b c : String) : (colPath b c).data.getLast? = some 'n' := by
  rw [colPath, strAppend_last]
  · decide
  · decide

theorem infoPath_last (b : String) : (infoPath b).data.getLast? = some 'n' := by
  rw [infoPath, strAppend_last]
  · decide
  · decide

theorem insTempPath_last (b c : String) : (insTempPath b c).data.getLast? = some 'p' := by
  rw [insTempPath, strAppend_last]
  · decide
  · decide

theorem tmpPath_last (b c : String) : (tmpPath b c).data.getLast? = some 'p' := by
  rw [tmpPath, strAppend_last]
  · decide
  · decide

theorem insTempPath_ne_colPath (b' c' b c : String) :
    insTempPath b' c' ≠ colPath b c := by
  intro h
  have h1 : (insTempPath b' c').data.getLast? = (colPath b c).data.getLast? := by rw [h]
  rw [insTempPath_last, colPath_last] at h1
  exact absurd h1 (by decide)

theorem insTempPath_ne_infoPath (b' c' b : String) :
    insTempPath b' c' ≠ infoPath b := by
  intro h
  have h1 : (insTempPath b' c').data.getLast? = (infoPath b).data.getLast? := by rw [h]
  rw [insTempPath_last, infoPath_last] at h1
  exact absurd h1 (by decide)

theorem tmpPath_ne_colPath (b' c' b c : String) :
    tmpPath b' c' ≠ colPath b c := by
  intro h
  have h1 : (tmpPath b' c').data.getLast? = (colPath b c).data.getLast? := by rw [h]
  rw [tmpPath_last, colPath_last] at h1
  exact absurd h1 (by decide)

theorem tmpPath_ne_infoPath (b' c' b : String) :
    tmpPath b' c' ≠ infoPath b := by
  intro h
  have h1 : (tmpPath b' c').data.getLast? = (infoPath b).data.getLast? := by rw [h]
  rw [tmpPath_last, infoPath_last] at h1
  exact absurd h1 (by decide)

theorem colPath_inj (b : String) {c c' : String} (h : colPath b c = colPath b c') :
    c = c' := by
  have h1 : (colPath b c).data = (colPath b c').data := congrArg _ h
  rw [colPath, colPath, String.data_append, String.data_append,
    String.data_append, String.data_append] at h1
  have h2 := List.append_cancel_right h1
  have h3 := List.append_cancel_left h2
  exact strData_inj h3

theorem insTempPath_inj (b : String) {c c' : String}
    (h : insTempPath b c = insTempPath b c') : c = c' := by
  have h1 : (insTempPath b c).data = (insTempPath b c').data := congrArg _ h
  rw [insTempPath, insTempPath, String.data_append, String.data_append] at h1
  exact colPath_inj b (strData_inj (List.append_cancel_right h1))

theorem tmpPath_inj (b : String) {c c' : String}
    (h : tmpPath b c = tmpPath b c') : c = c' := by
  have h1 : (tmpPath b c).data = (tmpPath b c').data := congrArg _ h
  rw [tmpPath, tmpPath, String.data_append, String.data_append] at h1
  exact colPath_inj b (strData_inj (List.append_cancel_right h1))

/-! ### Insert staging-loop lemmas -/

theorem insertStage_spec (base : String) (cols : List String) (vals : List Json) :
    ∀ (ti : TableInfo) (fs : FS) (staged : List (String × String)),
      (∃ pre, (insertStage base cols vals ti fs staged).2.2 = staged ++ pre ∧
        ∀ pr ∈ pre, ∃ c, c ∈ ti.map Prod.fst ∧
          pr = (insTempPath base c, colPath base c)) ∧
      (∀ p, p ∉ ((insertStage base cols vals ti fs staged).2.2).map Prod.fst →
        fsLookup p (insertStage base cols vals ti fs staged).2.1 = fsLookup p fs) ∧
      (∀ p, (∀ c ∈ ti.map Prod.fst, p ≠ insTempPath base c) →
        fsLookup p (insertStage base cols vals ti fs staged).2.1 = fsLookup p fs) := by
  intro ti
  induction ti with
  | nil =>
    intro fs staged
    refine ⟨⟨[], by simp [insertStage], by simp⟩, ?_, ?_⟩ <;>
      · intro p _
        simp [insertStage]
  | cons e rest ih =>
    intro fs staged
    obtain ⟨c, meta⟩ := e
    cases hl : fsLookup (colPath base c) fs with
    | none =>
      have hstep : insertStage base cols vals ((c, meta) :: rest) fs staged
          = (.error ("Missing column file: " ++ c), fs, staged) := by
        simp [insertStage, hl]
      rw [hstep]
      exact ⟨⟨[], by simp, by simp⟩, fun p _ => rfl, fun p _ => rfl⟩
    | some fd =>
      cases fd with
      | infoFile ti2 =>
        have hstep : insertStage base cols vals ((c, meta) :: rest) fs staged
            = (.error ("Missing column file: " ++ c), fs, staged) := by
          simp [insertStage, hl]
        rw [hstep]
        exact ⟨⟨[], by simp, by simp⟩, fun p _ => rfl, fun p _ => rfl⟩
      | colFile o =>
        cases hoc : insertOneColumn cols vals c meta ((smapLookup c o).getD []) with
        | error e2 =>
          have hstep : insertStage base cols vals ((c, meta) :: rest) fs staged
              = (.error e2, fs, staged) := by
            simp [insertStage, hl, hoc]
          rw [hstep]
          exact ⟨⟨[], by simp, by simp⟩, fun p _ => rfl, fun p _ => rfl⟩
        | ok newArr =>
          have hstep : insertStage base cols vals ((c, meta) :: rest) fs staged
              = insertStage base cols vals rest
                  (fsWrite (insTempPath base c) (.colFile (smapInsert c newArr o)) fs)
                  (staged ++ [(insTempPath base c, colPath base c)]) := by
            simp [insertStage, hl, hoc]
          rw [hstep]
          obtain ⟨⟨pre, hpre, hprs⟩, hf1, hf2⟩ :=
            ih (fsWrite (insTempPath base c) (.colFile (smapInsert c newArr o)) fs)
              (staged ++ [(insTempPath base c, colPath base c)])
          refine ⟨⟨(insTempPath base c, colPath base c) :: pre, ?_, ?_⟩, ?_, ?_⟩
          · rw [hpre]
            simp
          · intro pr hpr
            rcases List.mem_cons.mp hpr with h1 | h1
            · exact ⟨c, by simp, h1⟩
            · obtain ⟨c', hc', hpr'⟩ := hprs pr h1
              exact ⟨c', by simp [hc'], hpr'⟩
          · intro p hp
            have hmem : (insTempPath base c) ∈
                ((insertStage base cols vals rest
                  (fsWrite (insTempPath base c) (.colFile (smapInsert c newArr o)) fs)
                  (staged ++ [(insTempPath base c, colPath base c)])).2.2).map Prod.fst := by
              rw [hpre]
              simp
            have hneq : p ≠ insTempPath base c := fun h => hp (h ▸ hmem)
            rw [hf1 p hp, fsLookup_write, if_neg hneq]
          · intro p hp
            have hrest : ∀ c' ∈ rest.map Prod.fst, p ≠ insTempPath base c' := by
              intro c' hc'
              exact hp c' (by simp [hc'])
            have hc : p ≠ insTempPath base c := hp c (by simp)
            rw [hf2 p hrest, fsLookup_write, if_neg hc]

theorem insertOneColumn_length (cols : List String) (vals : List Json) (c : String)
    (meta : ColMeta) (arr newArr : List Json)
    (h : insertOneColumn cols vals c meta arr = .ok newArr) :
    newArr.length = arr.length + 1 := by
  rw [insertOneColumn] at h
  cases hidx : cols.findIdx? (fun x => x = c) with
  | none =>
    rw [hidx] at h
    by_cases hnn : meta.notNull = true
    · rw [if_pos hnn] at h
      cases h
    · rw [if_neg hnn] at h
      cases h
      simp
  | some i =>
    rw [hidx] at h
    simp only at h
    split at h
    · cases h
    · split at h
      · cases h
      · cases h
        simp

theorem insertStage_ok (base : String) (cols : List String) (vals : List Json) :
    ∀ (ti : TableInfo) (fs : FS) (staged : List (String × String))
      (fs' : FS) (staged' : List (String × String)),
      insertStage base cols vals ti fs staged = (.ok (), fs', staged') →
      (ti.map Prod.fst).Nodup →
      staged' = staged ++ ti.map (fun e => (insTempPath base e.1, colPath base e.1)) ∧
      ∀ e ∈ ti, ∃ o newArr,
        fsLookup (colPath base e.1) fs = some (.colFile o) ∧
        insertOneColumn cols vals e.1 e.2 ((smapLookup e.1 o).getD []) = .ok newArr ∧
        fsLookup (insTempPath base e.1) fs' = some (.colFile (smapInsert e.1 newArr o)) := by
  intro ti
  induction ti with
  | nil =>
    intro fs staged fs' staged' hok _
    simp only [insertStage, Prod.mk.injEq] at hok
    obtain ⟨-, h2, h3⟩ := hok
    refine ⟨by simp [← h3], by simp⟩
  | cons e rest ih =>
    intro fs staged fs' staged' hok hnd
    obtain ⟨c, meta⟩ := e
    cases hl : fsLookup (colPath base c) fs with
    | none => rw [insertStage, hl] at hok; cases hok
    | some fd =>
      cases fd with
      | infoFile ti2 => rw [insertStage, hl] at hok; cases hok
      | colFile o =>
        cases hoc : insertOneColumn cols vals c meta ((smapLookup c o).getD []) with
        | error e2 =>
          have hstep : insertStage base cols vals ((c, meta) :: rest) fs staged
              = (.error e2, fs, staged) := by
            simp [insertStage, hl, hoc]
          rw [hstep] at hok
          cases hok
        | ok newArr =>
          have hstep : insertStage base cols vals ((c, meta) :: rest) fs staged
              = insertStage base cols vals rest
                  (fsWrite (insTempPath base c) (.colFile (smapInsert c newArr o)) fs)
                  (staged ++ [(insTempPath base c, colPath base c)]) := by
            simp [insertStage, hl, hoc]
          rw [hstep] at hok
          have hnd1 : (rest.map Prod.fst).Nodup := (List.nodup_cons.mp hnd).2
          have hcnotin : c ∉ rest.map Prod.fst := (List.nodup_cons.mp hnd).1
          obtain ⟨hstg, hcontent⟩ := ih _ _ _ _ hok hnd1
          constructor
          · rw [hstg]
            simp
          · intro e2 he2
            rcases List.mem_cons.mp he2 with h1 | h1
            · subst h1
              refine ⟨o, newArr, hl, hoc, ?_⟩
              have hfr := (insertStage_spec base cols vals rest
                (fsWrite (insTempPath base c) (.colFile (smapInsert c newArr o)) fs)
                (staged ++ [(insTempPath base c, colPath base c)])).2.2
              rw [hok] at hfr
              have hne : ∀ c' ∈ rest.map Prod.fst,
                  insTempPath base c ≠ insTempPath base c' := by
                intro c' hc' h
                exact hcnotin ((insTempPath_inj base h) ▸ hc')
              rw [hfr (insTempPath base c) hne, fsLookup_write, if_pos rfl]
            · obtain ⟨o2, newArr2, ha, hb, hc2⟩ := hcontent e2 h1
              refine ⟨o2, newArr2, ?_, hb, hc2⟩
              rw [fsLookup_write] at ha
              by_cases hne : colPath base e2.1 = insTempPath base c
              · exact absurd hne.symm (insTempPath_ne_colPath _ _ _ _)
              · rwa [if_neg hne] at ha

/-! ### Commit-loop lemmas -/

theorem commitStaged_ok (faults : List String) :
    ∀ (staged : List (String × String)) (fs fs' : FS),
      commitStaged faults staged fs = (.ok (), fs') →
      (staged.map Prod.fst).Nodup →
      (staged.map Prod.snd).Nodup →
      (∀ pr ∈ staged, ∀ pr' ∈ staged, pr.1 ≠ pr'.2) →
      (∀ pr ∈ staged, fsLookup pr.2 fs' = fsLookup pr.1 fs) ∧
      (∀ p, p ∉ staged.map Prod.fst → p ∉ staged.map Prod.snd →
        fsLookup p fs' = fsLookup p fs) ∧
      (∀ t ∈ staged.map Prod.fst, fsLookup t fs' = none) := by
  intro staged
  induction staged with
  | nil =>
    intro fs fs' hok _ _ _
    simp only [commitStaged] at hok
    obtain ⟨-, h2⟩ := Prod.mk.injEq .. ▸ hok
    subst h2
    exact ⟨by simp, fun p _ _ => rfl, by simp⟩
  | cons pr rest ih =>
    intro fs fs' hok hnd1 hnd2 hdisj
    obtain ⟨t, f⟩ := pr
    rw [commitStaged] at hok
    split at hok
    · cases hok
    · cases hlt : fsLookup t fs with
      | none => rw [hlt] at hok; cases hok
      | some d =>
        rw [hlt] at hok
        have hnd1' : (rest.map Prod.fst).Nodup := (List.nodup_cons.mp hnd1).2
        have htnotin : t ∉ rest.map Prod.fst := (List.nodup_cons.mp hnd1).1
        have hnd2' : (rest.map Prod.snd).Nodup := (List.nodup_cons.mp hnd2).2
        have hfnotin : f ∉ rest.map Prod.snd := (List.nodup_cons.mp hnd2).1
        have hdisj' : ∀ pr ∈ rest, ∀ pr' ∈ rest, pr.1 ≠ pr'.2 := by
          intro a ha b hb
          exact hdisj a (List.mem_cons_of_mem _ ha) b (List.mem_cons_of_mem _ hb)
        obtain ⟨hfin, hfr, htmp⟩ := ih _ _ hok hnd1' hnd2' hdisj'
        have htf : t ≠ f := hdisj (t, f) (List.mem_cons_self _ _) (t, f) (List.mem_cons_self _ _)
        refine ⟨?_, ?_, ?_⟩
        · intro pr hpr
          rcases List.mem_cons.mp hpr with h1 | h1
          · subst h1
            have hfn1 : f ∉ rest.map Prod.fst := by
              intro hmem
              obtain ⟨pr2, hpr2, hpr2e⟩ := List.mem_map.mp hmem
              exact hdisj pr2 (List.mem_cons_of_mem _ hpr2) (t, f)
                (List.mem_cons_self _ _) hpr2e
            rw [hfr f hfn1 hfnotin, fsLookup_write, if_pos rfl, hlt]
          · rw [hfin pr h1, fsLookup_write, fsLookup_erase]
            have hne1 : pr.1 ≠ f :=
              hdisj pr (List.mem_cons_of_mem _ h1) (t, f) (List.mem_cons_self _ _)
            have hne2 : pr.1 ≠ t := by
              intro h
              exact htnotin (h ▸ List.mem_map_of_mem Prod.fst h1)
            rw [if_neg hne1, if_neg hne2]
        · intro p hp1 hp2
          have hp1' : p ∉ rest.map Prod.fst := fun h => hp1 (by simp [h])
          have hp2' : p ∉ rest.map Prod.snd := fun h => hp2 (by simp [h])
          have hpt : p ≠ t := fun h => hp1 (by simp [h])
          have hpf : p ≠ f := fun h => hp2 (by simp [h])
          rw [hfr p hp1' hp2', fsLookup_write, if_neg hpf, fsLookup_erase, if_neg hpt]
        · intro t2 ht2
          rcases List.mem_cons.mp (by simpa using ht2 :
              t2 ∈ t :: rest.map Prod.fst) with h1 | h1
          · subst h1
            have h2a : t2 ∉ rest.map Prod.fst := htnotin
            have h2b : t2 ∉ rest.map Prod.snd := by
              intro hmem
              obtain ⟨pr2, hpr2, hpr2e⟩ := List.mem_map.mp hmem
              exact hdisj (t2, f) (List.mem_cons_self _ _) pr2
                (List.mem_cons_of_mem _ hpr2) hpr2e.symm
            rw [hfr t2 h2a h2b, fsLookup_write, if_neg htf, fsLookup_erase, if_pos rfl]
          · exact htmp t2 h1

theorem commitStaged_nofault_ok :
    ∀ (staged : List (String × String)) (fs : FS),
      (staged.map Prod.fst).Nodup →
      (∀ pr ∈ staged, ∀ pr' ∈ staged, pr.1 ≠ pr'.2) →
      (∀ pr ∈ staged, (fsLookup pr.1 fs).isSome = true) →
      (commitStaged [] staged fs).1 = .ok () := by
  intro staged
  induction staged with
  | nil => intro fs _ _ _; rfl
  | cons pr rest ih =>
    intro fs hnd hdisj hpres
    obtain ⟨t, f⟩ := pr
    have hp := hpres (t, f) (List.mem_cons_self _ _)
    cases hlt : fsLookup t fs with
    | none => rw [hlt] at hp; cases hp
    | some d =>
      have hstep : commitStaged [] ((t, f) :: rest) fs
          = commitStaged [] rest (fsWrite f d (fsErase t fs)) := by
        simp [commitStaged, hlt]
      rw [hstep]
      refine ih _ (List.nodup_cons.mp hnd).2 ?_ ?_
      · intro a ha b hb
        exact hdisj a (List.mem_cons_of_mem _ ha) b (List.mem_cons_of_mem _ hb)
      · intro pr2 hpr2
        have hne1 : pr2.1 ≠ f :=
          hdisj pr2 (List.mem_cons_of_mem _ hpr2) (t, f) (List.mem_cons_self _ _)
        have hne2 : pr2.1 ≠ t := by
          intro h
          have hm : pr2.1 ∈ rest.map Prod.fst := List.mem_map_of_mem Prod.fst hpr2
          rw [h] at hm
          exact (List.nodup_cons.mp hnd).1 hm
        rw [fsLookup_write, if_neg hne1, fsLookup_erase, if_neg hne2]
        exact hpres pr2 (List.mem_cons_of_mem _ hpr2)

/-! ### C3 -/

theorem fsLookup_some_mem (p : String) :
    ∀ (fs : FS) (d : FileData), fsLookup p fs = some d → (p, d) ∈ fs := by
  intro fs
  induction fs with
  | nil => intro d h; cases h
  | cons e rest ih =>
    intro d h
    obtain ⟨q, x⟩ := e
    by_cases hpq : p = q
    · subst hpq
      simp only [fsLookup, if_pos rfl] at h
      cases h
      exact List.mem_cons_self _ _
    · simp only [fsLookup, if_neg hpq] at h
      exact List.mem_cons_of_mem _ (ih d h)

theorem colPath_slash_prefix_insTempPath (base c : String) :
    List.isPrefixOf ((colPath base c).data ++ ['/']) (insTempPath base c).data = true := by
  rw [List.isPrefixOf_iff_prefix]
  refine ⟨['.', 't', 'm', 'p'], ?_⟩
  rw [insTempPath, String.data_append, List.append_assoc]
  rfl

theorem ofstreamWrite_under_col (base c : String) (d' : FileData) (fs : FS)
    (d : FileData) (h : fsLookup (colPath base c) fs = some d) :
    ofstreamWrite (insTempPath base c) d' fs = fs := by
  have hany : fs.any
      (fun e => List.isPrefixOf (e.1.data ++ ['/']) (insTempPath base c).data) = true := by
    rw [List.any_eq_true]
    exact ⟨(colPath base c, d), fsLookup_some_mem _ fs d h,
      colPath_slash_prefix_insTempPath base c⟩
  rw [ofstreamWrite, if_pos hany]

theorem posixWF_no_temp (base c : String) (fs : FS) (hwf : posixWF fs = true)
    (d : FileData) (h : fsLookup (colPath base c) fs = some d) :
    fsLookup (insTempPath base c) fs = none := by
  cases ht : fsLookup (insTempPath base c) fs with
  | none => rfl
  | some d2 =>
    exfalso
    have hm1 := fsLookup_some_mem _ fs d h
    have hm2 := fsLookup_some_mem _ fs d2 ht
    rw [posixWF, List.all_eq_true] at hwf
    have h1 := hwf (colPath base c, d) hm1
    dsimp only at h1
    rw [List.all_eq_true] at h1
    have h2 := h1 (insTempPath base c, d2) hm2
    simp only [colPath_slash_prefix_insTempPath, Bool.not_true] at h2
    exact Bool.false_ne_true h2

theorem insertStagePosix_spec (base : String) (cols : List String) (vals : List Json) :
    ∀ (ti : TableInfo) (fs : FS) (staged : List (String × String)),
      (insertStagePosix base cols vals ti fs staged).2.1 = fs ∧
      ∃ pre, (insertStagePosix base cols vals ti fs staged).2.2 = staged ++ pre ∧
        ∀ pr ∈ pre, ∃ c o, pr = (insTempPath base c, colPath base c) ∧
          fsLookup (colPath base c) fs = some (.colFile o) := by
  intro ti
  induction ti with
  | nil =>
    intro fs staged
    exact ⟨rfl, [], by simp [insertStagePosix], by simp⟩
  | cons e rest ih =>
    intro fs staged
    obtain ⟨c, meta⟩ := e
    cases hl : fsLookup (colPath base c) fs with
    | none =>
      exact ⟨by simp [insertStagePosix, hl], [], by simp [insertStagePosix, hl], by simp⟩
    | some fd =>
      cases fd with
      | infoFile ti2 =>
        exact ⟨by simp [insertStagePosix, hl], [], by simp [insertStagePosix, hl], by simp⟩
      | colFile o =>
        cases hoc : insertOneColumn cols vals c meta ((smapLookup c o).getD []) with
        | error e2 =>
          exact ⟨by simp [insertStagePosix, hl, hoc], [],
            by simp [insertStagePosix, hl, hoc], by simp⟩
        | ok newArr =>
          have hw : ofstreamWrite (insTempPath base c)
              (.colFile (smapInsert c newArr o)) fs = fs :=
            ofstreamWrite_under_col base c _ fs _ hl
          have hstep : insertStagePosix base cols vals ((c, meta) :: rest) fs staged
              = insertStagePosix base cols vals rest fs
                  (staged ++ [(insTempPath base c, colPath base c)]) := by
            simp [insertStagePosix, hl, hoc, hw]
          obtain ⟨h1, pre, h2, h3⟩ := ih fs (staged ++ [(insTempPath base c, colPath base c)])
          rw [hstep]
          refine ⟨h1, (insTempPath base c, colPath base c) :: pre, ?_, ?_⟩
          · rw [h2]
            simp
          · intro pr hpr
            rcases List.mem_cons.mp hpr with h | h
            · exact ⟨c, o, h, hl⟩
            · exact h3 pr h

/-- C3 (confirmed): Insert is atomic on failure.  Under POSIX filesystem
semantics Insert's temp path `<column>.json/.tmp` lies under the regular
column file, so the unchecked `ofstream` never creates a temp file and the
first `fs::rename` of the commit loop raises; consequently every call to
Insert that terminates with an error — validation, constraint, staging or
rename — leaves every path's content exactly as before the call: no column
file's final content changes, and no staged temporary file exists
afterwards (none was ever created, so the catch-block cleanup finds
nothing to remove). -/
theorem C3_insert_atomic (base : String) (cols : List String) (vals : List Json)
    (fs : FS) (e : String)
    (hwf : posixWF fs = true)
    (herr : (insertFSPosix base cols vals fs).1 = .error e) :
    (∀ p, fsLookup p (insertFSPosix base cols vals fs).2 = fsLookup p fs) ∧
    ∀ c o, fsLookup (colPath base c) fs = some (.colFile o) →
      fsLookup (insTempPath base c) (insertFSPosix base cols vals fs).2 = none := by
  suffices hmain : ∀ p, fsLookup p (insertFSPosix base cols vals fs).2 = fsLookup p fs by
    refine ⟨hmain, fun c o hc => ?_⟩
    rw [hmain]
    exact posixWF_no_temp base c fs hwf _ hc
  cases hex : fsExists base fs with
  | false =>
    have hv : insertFSPosix base cols vals fs = (.error "Table doesn't exist", fs) := by
      rw [insertFSPosix, hex]
      simp
    rw [hv]
    exact fun p => rfl
  | true =>
    have hstep1 : insertFSPosix base cols vals fs
        = match fsLookup (infoPath base) fs with
          | none => (.error "Table-info.json not found", fs)
          | some (.colFile _) => (.error "Table-info.json not found", fs)
          | some (.infoFile ti) =>
            if cols.length ≠ vals.length then
              (.error "Must initialize value for every column", fs)
            else if ti.length < cols.length then (.error "Too many columns", fs)
            else
              match cols.find? (fun c => !(ti.any (fun e => e.1 = c))) with
              | some c => (.error ("Column doesn't exist: " ++ c), fs)
              | none =>
                match insertStagePosix base cols vals ti fs [] with
                | (.error e, fs1, staged) => (.error e, rollbackStaged staged fs1)
                | (.ok _, fs1, staged) =>
                  match commitStaged [] staged fs1 with
                  | (.ok _, fs2) => (.ok (), fs2)
                  | (.error e, fs2) => (.error e, rollbackStaged staged fs2) := by
      rw [insertFSPosix, hex]
      simp
    cases hinfo : fsLookup (infoPath base) fs with
    | none =>
      rw [hinfo] at hstep1
      rw [hstep1]
      exact fun p => rfl
    | some fd =>
      cases fd with
      | colFile o =>
        rw [hinfo] at hstep1
        rw [hstep1]
        exact fun p => rfl
      | infoFile ti =>
        rw [hinfo] at hstep1
        dsimp only at hstep1
        by_cases hlen : cols.length = vals.length
        · rw [if_neg (fun h => h hlen)] at hstep1
          by_cases htm : ti.length < cols.length
          · rw [if_pos htm] at hstep1
            rw [hstep1]
            exact fun p => rfl
          · rw [if_neg htm] at hstep1
            cases hfind : cols.find? (fun c => !(ti.any (fun e => e.1 = c))) with
            | some c =>
              rw [hfind] at hstep1
              rw [hstep1]
              exact fun p => rfl
            | none =>
              rw [hfind] at hstep1
              rcases hst : insertStagePosix base cols vals ti fs [] with ⟨res, fs1, staged⟩
              rw [hst] at hstep1
              obtain ⟨hfs1, pre, hpre, hprs⟩ := insertStagePosix_spec base cols vals ti fs []
              rw [hst] at hfs1 hpre
              dsimp only at hfs1 hpre
              rw [List.nil_append] at hpre
              have htmps : ∀ p, p ∈ staged.map Prod.fst → fsLookup p fs = none := by
                intro p hp
                obtain ⟨pr, hprm, hprf⟩ := List.mem_map.mp hp
                rw [hpre] at hprm
                obtain ⟨c2, o2, hpr, hc2⟩ := hprs pr hprm
                rw [← hprf, hpr]
                exact posixWF_no_temp base c2 fs hwf _ hc2
              have hroll : ∀ p, fsLookup p (rollbackStaged staged fs) = fsLookup p fs := by
                intro p
                rw [rollbackStaged_lookup]
                by_cases hp : p ∈ staged.map Prod.fst
                · rw [if_pos hp, htmps p hp]
                · rw [if_neg hp]
              cases res with
              | error e1 =>
                dsimp only at hstep1
                rw [hfs1] at hstep1
                rw [hstep1]
                exact hroll
              | ok u =>
                cases u
                dsimp only at hstep1
                rw [hfs1] at hstep1
                cases hpre2 : staged with
                | nil =>
                  rw [hpre2] at hstep1
                  have hcm : commitStaged [] ([] : List (String × String)) fs
                      = (.ok (), fs) := rfl
                  rw [hcm] at hstep1
                  dsimp only at hstep1
                  rw [hstep1] at herr
                  cases herr
                | cons pr rest =>
                  obtain ⟨c2, o2, hpr, hc2⟩ := hprs pr
                    (by rw [← hpre, hpre2]; exact List.mem_cons_self _ _)
                  have htn : fsLookup pr.1 fs = none := by
                    rw [hpr]
                    exact posixWF_no_temp base c2 fs hwf _ hc2
                  have hcm : commitStaged [] (pr :: rest) fs
                      = (.error ("rename failed: " ++ pr.1), fs) := by
                    obtain ⟨t, f⟩ := pr
                    simp only at htn
                    simp [commitStaged, htn]
                  rw [hpre2, hcm] at hstep1
                  dsimp only at hstep1
                  rw [hstep1, ← hpre2]
                  exact hroll
        · rw [if_pos hlen] at hstep1
          rw [hstep1]
          exact fun p => rfl

/-- C3 witness: inserting `('x', 5)` into the empty two-column table — a
call that passes every validation and reaches the commit loop — raises at
the first rename (no temp file was ever created), and both the column
files and the temp paths read exactly as before the call. -/
theorem C3_insert_atomic_witness :
    posixWF fsEmptyAB = true ∧
    (insertFSPosix insBase ["a", "b"] [Json.str "x", Json.int 5] fsEmptyAB).1
      = .error ("rename failed: " ++ insTempPath insBase "a") ∧
    fsLookup (colPath insBase "a")
      (insertFSPosix insBase ["a", "b"] [Json.str "x", Json.int 5] fsEmptyAB).2
      = fsLookup (colPath insBase "a") fsEmptyAB ∧
    fsLookup (insTempPath insBase "a")
      (insertFSPosix insBase ["a", "b"] [Json.str "x", Json.int 5] fsEmptyAB).2 = none := by
  have h := C3_insert_atomic insBase ["a", "b"] [Json.str "x", Json.int 5] fsEmptyAB
    ("rename failed: " ++ insTempPath insBase "a") (by decide) rfl
  exact ⟨by decide, rfl, h.1 (colPath insBase "a"), h.2 "a" [("a", [])] rfl⟩

/-! ### Delete lemmas -/

theorem eraseAt_length (l : List α) (i : Nat) (h : i < l.length) :
    (eraseAt l i).length = l.length - 1 := by
  simp [eraseAt, List.length_take, List.length_drop]
  omega

theorem applyErase_length :
    ∀ (rows : List Nat) (arr : List Json),
      rows.Pairwise (fun a b => b < a) →
      (∀ r ∈ rows, r < arr.length) →
      (applyErase rows arr).length = arr.length - rows.length := by
  intro rows
  induction rows with
  | nil => intro arr _ _; simp [applyErase]
  | cons r rest ih =>
    intro arr hpw hbnd
    have hr : r < arr.length := hbnd r (List.mem_cons_self _ _)
    have hstep : applyErase (r :: rest) arr = applyErase rest (eraseAt arr r) := by
      simp [applyErase, hr]
    rw [hstep]
    have hlen1 : (eraseAt arr r).length = arr.length - 1 := eraseAt_length arr r hr
    have hpw' : rest.Pairwise (fun a b => b < a) := (List.pairwise_cons.mp hpw).2
    have hbnd' : ∀ x ∈ rest, x < (eraseAt arr r).length := by
      intro x hx
      have hxr : x < r := (List.pairwise_cons.mp hpw).1 x hx
      omega
    rw [ih _ hpw' hbnd', hlen1]
    simp
    omega

theorem dedupGo_id :
    ∀ (l : List Nat) (prev : Nat), (∀ y ∈ l, y < prev) →
      l.Pairwise (fun a b => b < a) → dedupGo prev l = l := by
  intro l
  induction l with
  | nil => intro prev _ _; rfl
  | cons y r ih =>
    intro prev hlt hpw
    have hy : y < prev := hlt y (List.mem_cons_self _ _)
    have hne : y ≠ prev := by omega
    simp only [dedupGo, if_neg hne]
    rw [ih y (List.pairwise_cons.mp hpw).1 (List.pairwise_cons.mp hpw).2]

theorem dedupAdj_desc (l : List Nat) (h : l.Pairwise (fun a b => b < a)) :
    dedupAdj l = l := by
  cases l with
  | nil => rfl
  | cons x r =>
    simp only [dedupAdj]
    rw [dedupGo_id r x (List.pairwise_cons.mp h).1 (List.pairwise_cons.mp h).2]

theorem deleteStage_frame (base : String) (rows : List Nat) :
    ∀ (ti : TableInfo) (fs : FS) (staged : List (String × String)),
      ∀ p, (∀ c ∈ ti.map Prod.fst, p ≠ tmpPath base c) →
        fsLookup p (deleteStage base rows ti fs staged).2.1 = fsLookup p fs := by
  intro ti
  induction ti with
  | nil => intro fs staged p _; simp [deleteStage]
  | cons e rest ih =>
    intro fs staged p hp
    obtain ⟨c, meta⟩ := e
    have hrest : ∀ c' ∈ rest.map Prod.fst, p ≠ tmpPath base c' := by
      intro c' hc'
      exact hp c' (by simp [hc'])
    have hpc : p ≠ tmpPath base c := hp c (by simp)
    cases hl : fsLookup (colPath base c) fs with
    | none => simp [deleteStage, hl]
    | some fd =>
      cases fd with
      | infoFile ti2 => simp [deleteStage, hl]
      | colFile o =>
        cases ha : smapLookup c o with
        | none => simp [deleteStage, hl, ha]
        | some arr =>
          by_cases hsh : (applyErase rows arr).length < arr.length
          · have hstep : deleteStage base rows ((c, meta) :: rest) fs staged
                = deleteStage base rows rest
                    (fsWrite (tmpPath base c) (.colFile (smapInsert c (applyErase rows arr) o)) fs)
                    (staged ++ [(tmpPath base c, colPath base c)]) := by
              simp [deleteStage, hl, ha, hsh]
            rw [hstep, ih _ _ p hrest, fsLookup_write, if_neg hpc]
          · have hstep : deleteStage base rows ((c, meta) :: rest) fs staged
                = deleteStage base rows rest fs staged := by
              simp [deleteStage, hl, ha, hsh]
            rw [hstep, ih _ _ p hrest]

theorem deleteStage_ok (base : String) (rows : List Nat) (L : Nat)
    (hrows : rows ≠ []) (hLpos : 0 < L)
    (hbnd : ∀ r ∈ rows, r < L) (hpw : rows.Pairwise (fun a b => b < a)) :
    ∀ (ti : TableInfo) (fs : FS) (staged : List (String × String))
      (fs' : FS) (staged' : List (String × String)),
      deleteStage base rows ti fs staged = (.ok (), fs', staged') →
      (ti.map Prod.fst).Nodup →
      (∀ e ∈ ti, ∃ o arr, fsLookup (colPath base e.1) fs = some (.colFile o) ∧
        smapLookup e.1 o = some arr ∧ arr.length = L) →
      staged' = staged ++ ti.map (fun e => (tmpPath base e.1, colPath base e.1)) ∧
      ∀ e ∈ ti, ∃ o arr, fsLookup (colPath base e.1) fs = some (.colFile o) ∧
        smapLookup e.1 o = some arr ∧ arr.length = L ∧
        fsLookup (tmpPath base e.1) fs'
          = some (.colFile (smapInsert e.1 (applyErase rows arr) o)) := by
  intro ti
  induction ti with
  | nil =>
    intro fs staged fs' staged' hok _ _
    simp only [deleteStage, Prod.mk.injEq] at hok
    obtain ⟨-, h2, h3⟩ := hok
    exact ⟨by simp [← h3], by simp⟩
  | cons e rest ih =>
    intro fs staged fs' staged' hok hnd hcols
    obtain ⟨c, meta⟩ := e
    obtain ⟨o, arr, hl, ha, hlen⟩ := hcols (c, meta) (List.mem_cons_self _ _)
    have hshr : (applyErase rows arr).length < arr.length := by
      rw [applyErase_length rows arr hpw (by rw [hlen]; exact hbnd)]
      have : 0 < rows.length := List.length_pos.mpr hrows
      omega
    have hstep : deleteStage base rows ((c, meta) :: rest) fs staged
        = deleteStage base rows rest
            (fsWrite (tmpPath base c) (.colFile (smapInsert c (applyErase rows arr) o)) fs)
            (staged ++ [(tmpPath base c, colPath base c)]) := by
      simp [deleteStage, hl, ha, hshr]
    rw [hstep] at hok
    have hnd1 : (rest.map Prod.fst).Nodup := (List.nodup_cons.mp hnd).2
    have hcnotin : c ∉ rest.map Prod.fst := (List.nodup_cons.mp hnd).1
    have hcols' : ∀ e ∈ rest, ∃ o2 arr2,
        fsLookup (colPath base e.1)
          (fsWrite (tmpPath base c) (.colFile (smapInsert c (applyErase rows arr) o)) fs)
          = some (.colFile o2) ∧ smapLookup e.1 o2 = some arr2 ∧ arr2.length = L := by
      intro e2 he2
      obtain ⟨o2, arr2, hl2, ha2, hlen2⟩ := hcols e2 (List.mem_cons_of_mem _ he2)
      refine ⟨o2, arr2, ?_, ha2, hlen2⟩
      rw [fsLookup_write, if_neg (fun h => tmpPath_ne_colPath base c base e2.1 h.symm)]
      exact hl2
    obtain ⟨hstg, hcontent⟩ := ih _ _ _ _ hok hnd1 hcols'
    constructor
    · rw [hstg]
      simp
    · intro e2 he2
      rcases List.mem_cons.mp he2 with h1 | h1
      · subst h1
        refine ⟨o, arr, hl, ha, hlen, ?_⟩
        have hfr := deleteStage_frame base rows rest
          (fsWrite (tmpPath base c) (.colFile (smapInsert c (applyErase rows arr) o)) fs)
          (staged ++ [(tmpPath base c, colPath base c)]) (tmpPath base c)
          (by
            intro c' hc' h
            exact hcnotin ((tmpPath_inj base h) ▸ hc'))
        rw [hok] at hfr
        simp only at hfr
        rw [hfr, fsLookup_write, if_pos rfl]
      · obtain ⟨o2, arr2, hl2, ha2, hlen2, hc2⟩ := hcontent e2 h1
        refine ⟨o2, arr2, ?_, ha2, hlen2, hc2⟩
        rw [fsLookup_write, if_neg (fun h => tmpPath_ne_colPath base c base e2.1 h.symm)] at hl2
        exact hl2

theorem insertFS_ok_spec (faults : List String) (base : String) (cols : List String)
    (vals : List Json) (fs fs2 : FS) (ti : TableInfo)
    (hinfo : fsLookup (infoPath base) fs = some (.infoFile ti))
    (hnd : (ti.map Prod.fst).Nodup)
    (hok : insertFS faults base cols vals fs = (.ok (), fs2)) :
    ∀ e ∈ ti, ∃ o newArr,
      fsLookup (colPath base e.1) fs = some (.colFile o) ∧
      insertOneColumn cols vals e.1 e.2 ((smapLookup e.1 o).getD []) = .ok newArr ∧
      fsLookup (colPath base e.1) fs2 = some (.colFile (smapInsert e.1 newArr o)) := by
  cases hex : fsExists base fs with
  | false =>
    rw [insertFS, hex] at hok
    simp at hok
  | true =>
    rw [insertFS, hex] at hok
    simp only [Bool.not_true, Bool.false_eq_true, if_false, hinfo] at hok
    by_cases hlen : cols.length = vals.length
    · rw [if_neg (fun h => h hlen)] at hok
      by_cases htm : ti.length < cols.length
      · rw [if_pos htm] at hok
        cases hok
      · rw [if_neg htm] at hok
        cases hfind : cols.find? (fun c => !(ti.any (fun e => e.1 = c))) with
        | some c =>
          rw [hfind] at hok
          cases hok
        | none =>
          rw [hfind] at hok
          rcases hst : insertStage base cols vals ti fs [] with ⟨res, fs1, staged⟩
          rw [hst] at hok
          cases res with
          | error e1 =>
            dsimp only at hok
            cases hok
          | ok u =>
            cases u
            dsimp only at hok
            obtain ⟨hstg, hcontent⟩ :=
              insertStage_ok base cols vals ti fs [] fs1 staged hst hnd
            simp only [List.nil_append] at hstg
            rcases hcm : commitStaged faults staged fs1 with ⟨cres, fs2a⟩
            rw [hcm] at hok
            cases cres with
            | error e1 =>
              dsimp only at hok
              cases hok
            | ok u2 =>
              dsimp only at hok
              obtain ⟨-, h2⟩ := Prod.mk.injEq .. ▸ hok
              subst h2
              have hnd1 : (staged.map Prod.fst).Nodup := by
                rw [hstg, List.map_map]
                have he : (fun pr => Prod.fst pr) ∘
                    (fun e : String × ColMeta => (insTempPath base e.1, colPath base e.1))
                    = (fun c => insTempPath base c) ∘ Prod.fst := rfl
                rw [he, ← List.map_map]
                exact hnd.map (fun a b h => insTempPath_inj base h)
              have hnd2 : (staged.map Prod.snd).Nodup := by
                rw [hstg, List.map_map]
                have he : (fun pr => Prod.snd pr) ∘
                    (fun e : String × ColMeta => (insTempPath base e.1, colPath base e.1))
                    = (fun c => colPath base c) ∘ Prod.fst := rfl
                rw [he, ← List.map_map]
                exact hnd.map (fun a b h => colPath_inj base h)
              have hdisj : ∀ pr ∈ staged, ∀ pr' ∈ staged, pr.1 ≠ pr'.2 := by
                intro a ha b hb
                rw [hstg] at ha hb
                obtain ⟨ea, -, haa⟩ := List.mem_map.mp ha
                obtain ⟨eb, -, hbb⟩ := List.mem_map.mp hb
                rw [← haa, ← hbb]
                exact insTempPath_ne_colPath _ _ _ _
              obtain ⟨hfin, -, -⟩ := commitStaged_ok faults staged fs1 fs2a hcm hnd1 hnd2 hdisj
              intro e he
              obtain ⟨o, newArr, hcol, hioc, htmp⟩ := hcontent e he
              refine ⟨o, newArr, hcol, hioc, ?_⟩
              have hmem : (insTempPath base e.1, colPath base e.1) ∈ staged := by
                rw [hstg]
                exact List.mem_map_of_mem _ he
              have := hfin _ hmem
              simp only at this
              rw [this, htmp]
    · rw [if_pos hlen] at hok
      cases hok

/-! ### C2 -/

/-- C2: starting from a table whose column files all hold arrays of one
length `L`, a successful Insert leaves every schema column at length `L + 1`
(exactly one appended entry each), and a successful Delete leaves every pair
of schema columns at equal lengths (the same index set removed from each). -/
theorem C2_schema_size (faults : List String) (base : String) (cols : List String)
    (vals : List Json) (condStr : String) (fs : FS) (ti : TableInfo) (L : Nat)
    (hinfo : fsLookup (infoPath base) fs = some (.infoFile ti))
    (hnd : (ti.map Prod.fst).Nodup)
    (hL : ∀ e ∈ ti, ∃ o arr, fsLookup (colPath base e.1) fs = some (.colFile o) ∧
      smapLookup e.1 o = some arr ∧ arr.length = L) :
    (∀ fs2, insertFS faults base cols vals fs = (.ok (), fs2) →
      ∀ e ∈ ti, colLenFS fs2 base e.1 = L + 1) ∧
    (∀ fs2, deleteFS base condStr fs = (.ok (), fs2) →
      ∀ e1 ∈ ti, ∀ e2 ∈ ti, colLenFS fs2 base e1.1 = colLenFS fs2 base e2.1) := by
  have hColLen : ∀ e ∈ ti, colLenFS fs base e.1 = L := by
    intro e he
    obtain ⟨o, arr, hcol, hsl, hlen⟩ := hL e he
    simp only [colLenFS, hcol, hsl, Option.getD_some]
    exact hlen
  constructor
  · intro fs2 hok e he
    obtain ⟨o, arr, hcol, hsl, hlen⟩ := hL e he
    obtain ⟨o2, newArr, hcol2, hioc, hfin⟩ :=
      insertFS_ok_spec faults base cols vals fs fs2 ti hinfo hnd hok e he
    rw [hcol] at hcol2
    cases hcol2
    rw [hsl] at hioc
    simp only [Option.getD_some] at hioc
    have hlen2 := insertOneColumn_length cols vals e.1 e.2 arr newArr hioc
    have hred : colLenFS fs2 base e.1 = newArr.length := by
      simp [colLenFS, hfin, smapLookup_insert]
    rw [hred]
    omega
  · intro fs2 hok e1 he1 e2 he2
    cases hpc : parseCondition condStr with
    | error ep =>
      rw [deleteFS, hpc] at hok
      cases hok
    | ok cond =>
      rw [deleteFS, hpc] at hok
      cases hexd : fsExists (base ++ "/Columns") fs with
      | false =>
        rw [hexd] at hok
        simp at hok
      | true =>
        rw [hexd] at hok
        simp only [Bool.not_true, Bool.false_eq_true, if_false, hinfo] at hok
        cases hany : ti.any (fun e => e.1 = cond.column) with
        | false =>
          rw [hany] at hok
          simp at hok
        | true =>
          rw [hany] at hok
          simp only [Bool.not_true, Bool.false_eq_true, if_false] at hok
          obtain ⟨e0, he0, he0c⟩ := List.any_eq_true.mp hany
          have he0col : e0.1 = cond.column := of_decide_eq_true he0c
          obtain ⟨o0, arr0, hcol0, hsl0, hlen0⟩ := hL e0 he0
          rw [he0col] at hcol0 hsl0
          rw [hcol0] at hok
          simp only [hsl0] at hok
          set ra := (List.range arr0.length).filter
            (fun i => evalCondBool (arr0.getD i Json.null) cond) with hra
          by_cases hempty : ra = []
          · rw [if_pos hempty] at hok
            obtain ⟨-, h2⟩ := Prod.mk.injEq .. ▸ hok
            subst h2
            rw [hColLen e1 he1, hColLen e2 he2]
          · rw [if_neg hempty] at hok
            have hpwA : ra.Pairwise (fun a b => a < b) :=
              (List.pairwise_lt_range _).filter _
            have hrevpw : ra.reverse.Pairwise (fun a b => b < a) := by
              rw [List.pairwise_reverse]
              exact hpwA
            have hdd : dedupAdj ra.reverse = ra.reverse := dedupAdj_desc _ hrevpw
            rw [hdd] at hok
            have hrne : ra.reverse ≠ [] := by
              simpa using hempty
            have hbnd : ∀ r ∈ ra.reverse, r < L := by
              intro r hr
              rw [List.mem_reverse] at hr
              have hr2 := List.mem_range.mp (List.mem_of_mem_filter hr)
              omega
            have hL0 : 0 < L := by
              obtain ⟨x, hx⟩ := List.exists_mem_of_ne_nil _ hrne
              have := hbnd x hx
              omega
            rcases hst : deleteStage base ra.reverse ti fs [] with ⟨res, fs1, staged⟩
            rw [hst] at hok
            cases res with
            | error e3 =>
              dsimp only at hok
              cases hok
            | ok u =>
              cases u
              dsimp only at hok
              obtain ⟨hstg, hcontent⟩ := deleteStage_ok base ra.reverse L hrne hL0
                hbnd hrevpw ti fs [] fs1 staged hst hnd hL
              simp only [List.nil_append] at hstg
              rcases hcm : commitStaged [] staged fs1 with ⟨cres, fs2a⟩
              rw [hcm] at hok
              cases cres with
              | error e3 =>
                dsimp only at hok
                cases hok
              | ok u2 =>
                dsimp only at hok
                obtain ⟨-, h2⟩ := Prod.mk.injEq .. ▸ hok
                subst h2
                have hnd1 : (staged.map Prod.fst).Nodup := by
                  rw [hstg, List.map_map]
                  have he : (fun pr => Prod.fst pr) ∘
                      (fun e : String × ColMeta => (tmpPath base e.1, colPath base e.1))
                      = (fun c => tmpPath base c) ∘ Prod.fst := rfl
                  rw [he, ← List.map_map]
                  exact hnd.map (fun a b h => tmpPath_inj base h)
                have hnd2 : (staged.map Prod.snd).Nodup := by
                  rw [hstg, List.map_map]
                  have he : (fun pr => Prod.snd pr) ∘
                      (fun e : String × ColMeta => (tmpPath base e.1, colPath base e.1))
                      = (fun c => colPath base c) ∘ Prod.fst := rfl
                  rw [he, ← List.map_map]
                  exact hnd.map (fun a b h => colPath_inj base h)
                have hdisj : ∀ pr ∈ staged, ∀ pr' ∈ staged, pr.1 ≠ pr'.2 := by
                  intro a ha b hb
                  rw [hstg] at ha hb
                  obtain ⟨ea, -, haa⟩ := List.mem_map.mp ha
                  obtain ⟨eb, -, hbb⟩ := List.mem_map.mp hb
                  rw [← haa, ← hbb]
                  exact tmpPath_ne_colPath _ _ _ _
                obtain ⟨hfin, -, -⟩ := commitStaged_ok [] staged fs1 fs2a hcm hnd1 hnd2 hdisj
                have hcl : ∀ e ∈ ti, colLenFS fs2a base e.1 = L - ra.reverse.length := by
                  intro e he
                  obtain ⟨o, arr, hcol, hsl, hlen, htmp⟩ := hcontent e he
                  have hmem : (tmpPath base e.1, colPath base e.1) ∈ staged := by
                    rw [hstg]
                    exact List.mem_map_of_mem _ he
                  have hfe := hfin _ hmem
                  simp only at hfe
                  have hred : colLenFS fs2a base e.1 = (applyErase ra.reverse arr).length := by
                    simp [colLenFS, hfe, htmp, smapLookup_insert]
                  rw [hred, applyErase_length _ _ hrevpw (by rw [hlen]; exact hbnd), hlen]
                rw [hcl e1 he1, hcl e2 he2]

/-- C2 witness: a two-row table of equal column lengths, one successful
insert (lengths 2 → 3) and one successful delete (equal lengths after). -/
theorem C2_witness :
    colLenFS (insertFS [] insBase ["a", "b"] [Json.str "z", Json.int 3] fsTwoRows).2
      insBase "a" = 3 ∧
    colLenFS (deleteFS insBase "b = 2" fsTwoRows).2 insBase "a"
      = colLenFS (deleteFS insBase "b = 2" fsTwoRows).2 insBase "b" := by
  obtain ⟨hins, hdel⟩ := C2_schema_size [] insBase ["a", "b"] [Json.str "z", Json.int 3]
    "b = 2" fsTwoRows
    [("a", ⟨"TEXT", false, false⟩), ("b", ⟨"int", false, false⟩)] 2 rfl (by decide)
    (by
      intro e he
      rcases List.mem_cons.mp he with h | h
      · subst h
        exact ⟨[("a", [Json.str "x", Json.str "y"])], [Json.str "x", Json.str "y"],
          rfl, rfl, rfl⟩
      · rcases List.mem_cons.mp h with h2 | h2
        · subst h2
          exact ⟨[("b", [Json.int 1, Json.int 2])], [Json.int 1, Json.int 2],
            rfl, rfl, rfl⟩
        · cases h2)
  constructor
  · have h3 := hins (insertFS [] insBase ["a", "b"] [Json.str "z", Json.int 3] fsTwoRows).2
      rfl ("a", ⟨"TEXT", false, false⟩) (by decide)
    exact h3
  · exact hdel (deleteFS insBase "b = 2" fsTwoRows).2 rfl
      ("a", ⟨"TEXT", false, false⟩) (by decide) ("b", ⟨"int", false, false⟩) (by decide)

/-! ### Update lemmas -/

theorem updateCells_length (nv : Json) :
    ∀ (bm : List Bool) (vs : List Json), (updateCells nv bm vs).1.length = vs.length := by
  intro bm
  induction bm with
  | nil => intro vs; cases vs <;> simp [updateCells]
  | cons b bs ih =>
    intro vs
    cases vs with
    | nil => simp [updateCells]
    | cons v vs' =>
      simp only [updateCells]
      split <;> simp [ih]

theorem updateCells_frame (nv : Json) :
    ∀ (bm : List Bool) (vs : List Json) (i : Nat),
      (updateCells nv bm vs).1.getD i Json.null ≠ vs.getD i Json.null →
      i < vs.length ∧ i < bm.length ∧ bm.getD i false = true := by
  intro bm
  induction bm with
  | nil =>
    intro vs i h
    cases vs <;> simp [updateCells] at h
  | cons b bs ih =>
    intro vs i h
    cases vs with
    | nil => simp [updateCells] at h
    | cons v vs' =>
      cases i with
      | zero =>
        simp only [updateCells] at h
        by_cases hb : b && decide (v ≠ nv)
        · rw [if_pos hb] at h
          simp only [Bool.and_eq_true, decide_eq_true_eq] at hb
          refine ⟨by simp, by simp, by simp [hb.1]⟩
        · rw [if_neg hb] at h
          simp at h
      | succ j =>
        simp only [updateCells] at h
        have h2 : (updateCells nv bs vs').1.getD j Json.null ≠ vs'.getD j Json.null := by
          by_cases hb : b && decide (v ≠ nv)
          · rw [if_pos hb] at h
            simpa using h
          · rw [if_neg hb] at h
            simpa using h
        obtain ⟨h3, h4, h5⟩ := ih vs' j h2
        exact ⟨by simpa using h3, by simpa using h4, by simpa using h5⟩

theorem updateCells_nochange (nv : Json) :
    ∀ (bm : List Bool) (vs : List Json),
      (∀ i, i < vs.length → i < bm.length → bm.getD i false = true →
        vs.getD i Json.null = nv) →
      updateCells nv bm vs = (vs, false) := by
  intro bm
  induction bm with
  | nil => intro vs _; cases vs <;> simp [updateCells]
  | cons b bs ih =>
    intro vs hyp
    cases vs with
    | nil => simp [updateCells]
    | cons v vs' =>
      have hrec : updateCells nv bs vs' = (vs', false) := by
        refine ih vs' ?_
        intro i h1 h2 h3
        have := hyp (i + 1) (by simpa using h1) (by simpa using h2) (by simpa using h3)
        simpa using this
      have hhead : (b && decide (v ≠ nv)) ≠ true := by
        intro hb
        rw [Bool.and_eq_true, decide_eq_true_eq] at hb
        have := hyp 0 (by simp) (by simp) (by simp [hb.1])
        simp at this
        exact hb.2 this
      simp only [updateCells, hrec, if_neg hhead]

theorem count_true_map (f : α → Bool) (l : List α) :
    (l.map f).count true = l.countP f := by
  induction l with
  | nil => rfl
  | cons x xs ih =>
    simp only [List.map_cons, List.count_cons, List.countP_cons, ih]
    cases h : f x <;> simp [h]

theorem updChanged_write_tmp (base : String) (bitmap : List Bool) (fs : FS)
    (c : String) (d : FileData) (u : String × Json) :
    updChanged base bitmap (fsWrite (tmpPath base c) d fs) u
      = updChanged base bitmap fs u := by
  rw [updChanged, updChanged, fsLookup_write,
    if_neg (fun h => tmpPath_ne_colPath base c base u.1 h.symm)]

theorem updateStage_frame (base : String) (bitmap : List Bool) :
    ∀ (updates : List (String × Json)) (fs : FS) (staged : List (String × String)),
      ∀ p, (∀ c ∈ updates.map Prod.fst, p ≠ tmpPath base c) →
        fsLookup p (updateStage base bitmap updates fs staged).2.1 = fsLookup p fs := by
  intro updates
  induction updates with
  | nil => intro fs staged p _; simp [updateStage]
  | cons u rest ih =>
    intro fs staged p hp
    obtain ⟨c, nv⟩ := u
    have hrest : ∀ c' ∈ rest.map Prod.fst, p ≠ tmpPath base c' := by
      intro c' hc'
      exact hp c' (by simp [hc'])
    have hpc : p ≠ tmpPath base c := hp c (by simp)
    cases hl : fsLookup (colPath base c) fs with
    | none => simp [updateStage, hl]
    | some fd =>
      cases fd with
      | infoFile ti2 => simp [updateStage, hl]
      | colFile o =>
        cases ha : smapLookup c o with
        | none => simp [updateStage, hl, ha]
        | some vals =>
          by_cases hch : (updateCells nv bitmap vals).2 = true
          · have hstep : updateStage base bitmap ((c, nv) :: rest) fs staged
                = updateStage base bitmap rest
                    (fsWrite (tmpPath base c)
                      (.colFile (smapInsert c (updateCells nv bitmap vals).1 o)) fs)
                    (staged ++ [(tmpPath base c, colPath base c)]) := by
              simp [updateStage, hl, ha, hch]
            rw [hstep, ih _ _ p hrest, fsLookup_write, if_neg hpc]
          · have hstep : updateStage base bitmap ((c, nv) :: rest) fs staged
                = updateStage base bitmap rest fs staged := by
              simp only [Bool.not_eq_true] at hch
              simp [updateStage, hl, ha, hch]
            rw [hstep, ih _ _ p hrest]

theorem updateStage_ok (base : String) (bitmap : List Bool) :
    ∀ (updates : List (String × Json)) (fs : FS) (staged : List (String × String))
      (fs' : FS) (staged' : List (String × String)),
      updateStage base bitmap updates fs staged = (.ok (), fs', staged') →
      (updates.map Prod.fst).Nodup →
      staged' = staged ++ (updates.filter (fun u => updChanged base bitmap fs u)).map
        (fun u => (tmpPath base u.1, colPath base u.1)) ∧
      ∀ u ∈ updates, ∃ o vals,
        fsLookup (colPath base u.1) fs = some (.colFile o) ∧
        smapLookup u.1 o = some vals ∧
        ((updateCells u.2 bitmap vals).2 = true →
          fsLookup (tmpPath base u.1) fs'
            = some (.colFile (smapInsert u.1 (updateCells u.2 bitmap vals).1 o))) ∧
        ((updateCells u.2 bitmap vals).2 = false →
          fsLookup (tmpPath base u.1) fs' = fsLookup (tmpPath base u.1) fs) := by
  intro updates
  induction updates with
  | nil =>
    intro fs staged fs' staged' hok _
    simp only [updateStage, Prod.mk.injEq] at hok
    obtain ⟨-, h2, h3⟩ := hok
    exact ⟨by simp [← h3], by simp⟩
  | cons u rest ih =>
    intro fs staged fs' staged' hok hnd
    obtain ⟨c, nv⟩ := u
    have hnd1 : (rest.map Prod.fst).Nodup := (List.nodup_cons.mp hnd).2
    have hcnotin : c ∉ rest.map Prod.fst := (List.nodup_cons.mp hnd).1
    have htmpnotin : ∀ c' ∈ rest.map Prod.fst, tmpPath base c ≠ tmpPath base c' := by
      intro c' hc' h
      exact hcnotin ((tmpPath_inj base h) ▸ hc')
    cases hl : fsLookup (colPath base c) fs with
    | none => rw [updateStage, hl] at hok; cases hok
    | some fd =>
      cases fd with
      | infoFile ti2 => rw [updateStage, hl] at hok; cases hok
      | colFile o =>
        cases ha : smapLookup c o with
        | none =>
          have hstep : updateStage base bitmap ((c, nv) :: rest) fs staged
              = (.error ("Invalid column data format for: " ++ c), fs, staged) := by
            simp [updateStage, hl, ha]
          rw [hstep] at hok
          cases hok
        | some vals =>
          have hchval : updChanged base bitmap fs (c, nv) = (updateCells nv bitmap vals).2 := by
            simp [updChanged, hl, ha]
          by_cases hch : (updateCells nv bitmap vals).2 = true
          · have hstep : updateStage base bitmap ((c, nv) :: rest) fs staged
                = updateStage base bitmap rest
                    (fsWrite (tmpPath base c)
                      (.colFile (smapInsert c (updateCells nv bitmap vals).1 o)) fs)
                    (staged ++ [(tmpPath base c, colPath base c)]) := by
              simp [updateStage, hl, ha, hch]
            rw [hstep] at hok
            obtain ⟨hstg, hcontent⟩ := ih _ _ _ _ hok hnd1
            have hfilter : rest.filter (fun u => updChanged base bitmap
                (fsWrite (tmpPath base c)
                  (.colFile (smapInsert c (updateCells nv bitmap vals).1 o)) fs) u)
                = rest.filter (fun u => updChanged base bitmap fs u) := by
              refine List.filter_congr ?_
              intro x _
              rw [updChanged_write_tmp]
            constructor
            · rw [hstg, hfilter]
              simp [List.filter_cons, hchval, hch]
            · intro u2 hu2
              rcases List.mem_cons.mp hu2 with h1 | h1
              · subst h1
                refine ⟨o, vals, hl, ha, ?_, ?_⟩
                · intro _
                  have hfr := updateStage_frame base bitmap rest
                    (fsWrite (tmpPath base c)
                      (.colFile (smapInsert c (updateCells nv bitmap vals).1 o)) fs)
                    (staged ++ [(tmpPath base c, colPath base c)]) (tmpPath base c) htmpnotin
                  rw [hok] at hfr
                  simp only at hfr
                  rw [hfr, fsLookup_write, if_pos rfl]
                · intro hc2
                  rw [hch] at hc2
                  cases hc2
              · obtain ⟨o2, vals2, hl2, ha2, hc2a, hc2b⟩ := hcontent u2 h1
                have hlne : colPath base u2.1 ≠ tmpPath base c :=
                  fun h => tmpPath_ne_colPath base c base u2.1 h.symm
                rw [fsLookup_write, if_neg hlne] at hl2
                refine ⟨o2, vals2, hl2, ha2, hc2a, ?_⟩
                intro hcc
                rw [hc2b hcc, fsLookup_write, if_neg ?_]
                have hu2mem : u2.1 ∈ rest.map Prod.fst := List.mem_map_of_mem Prod.fst h1
                exact fun h => (htmpnotin u2.1 hu2mem) h.symm
          · have hch' : (updateCells nv bitmap vals).2 = false := by
              simpa using hch
            have hstep : updateStage base bitmap ((c, nv) :: rest) fs staged
                = updateStage base bitmap rest fs staged := by
              simp [updateStage, hl, ha, hch']
            rw [hstep] at hok
            obtain ⟨hstg, hcontent⟩ := ih _ _ _ _ hok hnd1
            constructor
            · rw [hstg]
              simp [List.filter_cons, hchval, hch']
            · intro u2 hu2
              rcases List.mem_cons.mp hu2 with h1 | h1
              · subst h1
                refine ⟨o, vals, hl, ha, ?_, ?_⟩
                · intro hcc
                  rw [hch'] at hcc
                  cases hcc
                · intro _
                  have hfr := updateStage_frame base bitmap rest fs staged
                    (tmpPath base c) htmpnotin
                  rw [hok] at hfr
                  simp only at hfr
                  exact hfr
              · exact hcontent u2 h1

theorem updateFS_ok_spec (base tname : String) (updates : List (String × Json))
    (condStr : String) (fs fs2 : FS) (n : Nat) (cond : Condition) (ti : TableInfo)
    (o0 : ColObj) (condVals : List Json)
    (hne : condStr ≠ "")
    (hpc : parseCondition condStr = .ok cond)
    (hinfo : fsLookup (infoPath base) fs = some (.infoFile ti))
    (hc0 : fsLookup (colPath base cond.column) fs = some (.colFile o0))
    (hv0 : smapLookup cond.column o0 = some condVals)
    (hnd : (updates.map Prod.fst).Nodup)
    (hok : updateFS base tname updates condStr fs = (.ok n, fs2)) :
    n = (condVals.map (fun v => evalCondBool v cond)).count true ∧
    ∀ u ∈ updates, ∃ o vals,
      fsLookup (colPath base u.1) fs = some (.colFile o) ∧
      smapLookup u.1 o = some vals ∧
      (((updateCells u.2 (condVals.map (fun v => evalCondBool v cond)) vals).2 = true →
        fsLookup (colPath base u.1) fs2 = some (.colFile
          (smapInsert u.1 (updateCells u.2
            (condVals.map (fun v => evalCondBool v cond)) vals).1 o))) ∧
      ((updateCells u.2 (condVals.map (fun v => evalCondBool v cond)) vals).2 = false →
        fsLookup (colPath base u.1) fs2 = fsLookup (colPath base u.1) fs ∧
        fsLookup (tmpPath base u.1) fs2 = fsLookup (tmpPath base u.1) fs)) := by
  set bm := condVals.map (fun v => evalCondBool v cond) with hbmdef
  cases hexd : fsExists (base ++ "/Columns") fs with
  | false =>
    rw [updateFS, hexd] at hok
    simp at hok
  | true =>
    rw [updateFS, hexd] at hok
    simp only [Bool.not_true, Bool.false_eq_true, if_false] at hok
    rw [if_pos hne, hpc] at hok
    simp only [Except.mapError] at hok
    rw [hinfo] at hok
    dsimp only at hok
    cases hfind : updates.find? (fun u => !(ti.any (fun e => e.1 = u.1))) with
    | some u0 =>
      rw [hfind] at hok
      cases hok
    | none =>
      rw [hfind] at hok
      have hbm : affectedBitmap base ti condStr cond fs = .ok bm := by
        simp [affectedBitmap, hne, hc0, hv0]
      rw [hbm] at hok
      dsimp only at hok
      rcases hst : updateStage base bm updates fs [] with ⟨res, fs1, staged⟩
      rw [hst] at hok
      cases res with
      | error e3 =>
        dsimp only at hok
        cases hok
      | ok u =>
        cases u
        dsimp only at hok
        obtain ⟨hstg, hcontent⟩ := updateStage_ok base bm updates fs [] fs1 staged hst hnd
        simp only [List.nil_append] at hstg
        rcases hcm : commitStaged [] staged fs1 with ⟨cres, fs2a⟩
        rw [hcm] at hok
        cases cres with
        | error e3 =>
          dsimp only at hok
          cases hok
        | ok u2 =>
          dsimp only at hok
          obtain ⟨h1, h2⟩ := Prod.mk.injEq .. ▸ hok
          have hn : n = bm.count true := by
            injection h1 with h1a
            exact h1a.symm
          subst h2
          set flt := updates.filter (fun u => updChanged base bm fs u) with hflt
          have hfltsub : (flt.map Prod.fst).Sublist (updates.map Prod.fst) :=
            (List.filter_sublist _).map Prod.fst
          have hndf : (flt.map Prod.fst).Nodup := hnd.sublist hfltsub
          have hnd1 : (staged.map Prod.fst).Nodup := by
            rw [hstg, List.map_map]
            have he : (fun pr => Prod.fst pr) ∘
                (fun u : String × Json => (tmpPath base u.1, colPath base u.1))
                = (fun c => tmpPath base c) ∘ Prod.fst := rfl
            rw [he, ← List.map_map]
            exact hndf.map (fun a b h => tmpPath_inj base h)
          have hnd2 : (staged.map Prod.snd).Nodup := by
            rw [hstg, List.map_map]
            have he : (fun pr => Prod.snd pr) ∘
                (fun u : String × Json => (tmpPath base u.1, colPath base u.1))
                = (fun c => colPath base c) ∘ Prod.fst := rfl
            rw [he, ← List.map_map]
            exact hndf.map (fun a b h => colPath_inj base h)
          have hdisj : ∀ pr ∈ staged, ∀ pr' ∈ staged, pr.1 ≠ pr'.2 := by
            intro a ha b hb
            rw [hstg] at ha hb
            obtain ⟨ea, -, haa⟩ := List.mem_map.mp ha
            obtain ⟨eb, -, hbb⟩ := List.mem_map.mp hb
            rw [← haa, ← hbb]
            exact tmpPath_ne_colPath _ _ _ _
          obtain ⟨hfin, hfr, -⟩ := commitStaged_ok [] staged fs1 fs2a hcm hnd1 hnd2 hdisj
          refine ⟨hn, ?_⟩
          intro u hu
          obtain ⟨o, vals, hl, ha, hct, hcf⟩ := hcontent u hu
          refine ⟨o, vals, hl, ha, ?_, ?_⟩
          · intro hch
            have hchu : updChanged base bm fs u = true := by
              simp [updChanged, hl, ha, hch]
            have humem : u ∈ flt := List.mem_filter.mpr ⟨hu, hchu⟩
            have hmem : (tmpPath base u.1, colPath base u.1) ∈ staged := by
              rw [hstg]
              exact List.mem_map_of_mem _ humem
            have hfe := hfin _ hmem
            simp only at hfe
            rw [hfe, hct hch]
          · intro hch
            have hchu : updChanged base bm fs u = false := by
              simp [updChanged, hl, ha, hch]
            have hunot : u ∉ flt := by
              intro hmem
              rw [(List.mem_filter.mp hmem).2] at hchu
              cases hchu
            have hinjkeys := List.inj_on_of_nodup_map hnd
            have hcolnot : colPath base u.1 ∉ staged.map Prod.snd := by
              intro hmem
              rw [hstg, List.map_map] at hmem
              obtain ⟨u2, hu2, hu2e⟩ := List.mem_map.mp hmem
              simp only [Function.comp] at hu2e
              have : u2.1 = u.1 := colPath_inj base hu2e
              have : u2 = u := hinjkeys (List.mem_of_mem_filter hu2) hu this
              subst this
              exact hunot hu2
            have htmpnot : tmpPath base u.1 ∉ staged.map Prod.fst := by
              intro hmem
              rw [hstg, List.map_map] at hmem
              obtain ⟨u2, hu2, hu2e⟩ := List.mem_map.mp hmem
              simp only [Function.comp] at hu2e
              have : u2.1 = u.1 := tmpPath_inj base hu2e
              have : u2 = u := hinjkeys (List.mem_of_mem_filter hu2) hu this
              subst this
              exact hunot hu2
            have hcolnot2 : colPath base u.1 ∉ staged.map Prod.fst := by
              intro hmem
              rw [hstg, List.map_map] at hmem
              obtain ⟨u2, hu2, hu2e⟩ := List.mem_map.mp hmem
              simp only [Function.comp] at hu2e
              exact tmpPath_ne_colPath base u2.1 base u.1 hu2e
            have htmpnot2 : tmpPath base u.1 ∉ staged.map Prod.snd := by
              intro hmem
              rw [hstg, List.map_map] at hmem
              obtain ⟨u2, hu2, hu2e⟩ := List.mem_map.mp hmem
              simp only [Function.comp] at hu2e
              exact tmpPath_ne_colPath base u.1 base u2.1 hu2e.symm
            constructor
            · rw [hfr _ hcolnot2 hcolnot]
              have hfr2 := updateStage_frame base bm updates fs [] (colPath base u.1)
                (by
                  intro c' hc' h
                  exact tmpPath_ne_colPath base c' base u.1 h.symm)
              rw [hst] at hfr2
              simp only at hfr2
              exact hfr2
            · rw [hfr _ htmpnot htmpnot2]
              exact hcf hch

/-! ### C9 -/

/-- C9: a successful conditional Update returns the number of rows whose
condition evaluated true on the condition column — not the number of cells
rewritten — and a set-map column in which every affected in-bounds cell
already holds the new value is not staged: its final file and its temp path
are untouched. -/
theorem C9_update_count (base tname : String) (updates : List (String × Json))
    (condStr : String) (fs fs2 : FS) (n : Nat) (cond : Condition) (ti : TableInfo)
    (o0 : ColObj) (condVals : List Json)
    (hne : condStr ≠ "") (hpc : parseCondition condStr = .ok cond)
    (hinfo : fsLookup (infoPath base) fs = some (.infoFile ti))
    (hc0 : fsLookup (colPath base cond.column) fs = some (.colFile o0))
    (hv0 : smapLookup cond.column o0 = some condVals)
    (hnd : (updates.map Prod.fst).Nodup)
    (hok : updateFS base tname updates condStr fs = (.ok n, fs2)) :
    n = condVals.countP (fun v => evalCondBool v cond) ∧
    ∀ u ∈ updates, ∀ o vals, fsLookup (colPath base u.1) fs = some (.colFile o) →
      smapLookup u.1 o = some vals →
      (∀ i, i < vals.length → i < condVals.length →
        (condVals.map (fun v => evalCondBool v cond)).getD i false = true →
        vals.getD i Json.null = u.2) →
      fsLookup (colPath base u.1) fs2 = fsLookup (colPath base u.1) fs ∧
      fsLookup (tmpPath base u.1) fs2 = fsLookup (tmpPath base u.1) fs := by
  obtain ⟨hn, hcols⟩ := updateFS_ok_spec base tname updates condStr fs fs2 n cond ti
    o0 condVals hne hpc hinfo hc0 hv0 hnd hok
  refine ⟨by rw [hn, count_true_map], ?_⟩
  intro u hu o vals hlo hsv hnc
  obtain ⟨o2, vals2, hlo2, hsv2, -, hcf⟩ := hcols u hu
  rw [hlo] at hlo2
  cases hlo2
  rw [hsv] at hsv2
  cases hsv2
  have hnochg : updateCells u.2 (condVals.map (fun v => evalCondBool v cond)) vals
      = (vals, false) := by
    refine updateCells_nochange u.2 _ vals ?_
    intro i h1 h2 h3
    rw [List.length_map] at h2
    exact hnc i h1 h2 h3
  exact hcf (by rw [hnochg])

/-- C9 witness: `UPDATE t SET x=1 WHERE y>3` on `y = [1, 10]`,
`x = [0, 1, 0]` returns 1 (one matching row) although the matching row's `x`
cell already holds 1, and `x`'s file and temp path are untouched. -/
theorem C9_witness :
    (1 : Nat) = ([Json.int 1, Json.int 10] : List Json).countP
      (fun v => evalCondBool v ⟨"y", ">", "3"⟩) ∧
    fsLookup (colPath selBase "x")
      (updateFS selBase "t" [("x", Json.int 1)] "y > 3" fsUneven).2
      = fsLookup (colPath selBase "x") fsUneven ∧
    fsLookup (tmpPath selBase "x")
      (updateFS selBase "t" [("x", Json.int 1)] "y > 3" fsUneven).2
      = fsLookup (tmpPath selBase "x") fsUneven := by
  obtain ⟨hn, hu⟩ := C9_update_count selBase "t" [("x", Json.int 1)] "y > 3" fsUneven
    (updateFS selBase "t" [("x", Json.int 1)] "y > 3" fsUneven).2 1 ⟨"y", ">", "3"⟩
    [("x", ⟨"int", false, false⟩), ("y", ⟨"int", false, false⟩)]
    [("y", [Json.int 1, Json.int 10])] [Json.int 1, Json.int 10]
    (by decide) rfl rfl rfl rfl (by decide) rfl
  have hx := hu ("x", Json.int 1) (by decide)
    [("x", [Json.int 0, Json.int 1, Json.int 0])] [Json.int 0, Json.int 1, Json.int 0]
    rfl rfl
    (by
      intro i h1 h2 h3
      rcases i with _ | _ | i
      · exact absurd h3 (by decide)
      · rfl
      · simp only [List.length_cons, List.length_nil] at h2
        omega)
  exact ⟨hn, hx.1, hx.2⟩

/-! ### C10 -/

/-- C10: a successful conditional Update can only overwrite positions below
both the set-map column's stored length and the affected-row bitmap's length
(= the condition column's length; without a condition the bitmap covers the
first schema column's length), and only where the bitmap is set; every other
position of the final column equals the original, and the column's length is
preserved. -/
theorem C10_update_bounds (base tname : String) (updates : List (String × Json))
    (condStr : String) (fs fs2 : FS) (n : Nat) (cond : Condition) (ti : TableInfo)
    (o0 : ColObj) (condVals : List Json)
    (hne : condStr ≠ "") (hpc : parseCondition condStr = .ok cond)
    (hinfo : fsLookup (infoPath base) fs = some (.infoFile ti))
    (hc0 : fsLookup (colPath base cond.column) fs = some (.colFile o0))
    (hv0 : smapLookup cond.column o0 = some condVals)
    (hnd : (updates.map Prod.fst).Nodup)
    (hok : updateFS base tname updates condStr fs = (.ok n, fs2)) :
    (∀ u ∈ updates, ∀ o vals, fsLookup (colPath base u.1) fs = some (.colFile o) →
      smapLookup u.1 o = some vals →
      (colValsFS fs2 base u.1).length = vals.length ∧
      ∀ i, (colValsFS fs2 base u.1).getD i Json.null ≠ vals.getD i Json.null →
        i < vals.length ∧ i < condVals.length ∧
        (condVals.map (fun v => evalCondBool v cond)).getD i false = true) ∧
    (∀ (base2 : String) (fs3 : FS) (c0 : String) (m : ColMeta) (rest : TableInfo)
      (cond2 : Condition),
      affectedBitmap base2 ((c0, m) :: rest) "" cond2 fs3
        = .ok (List.replicate (colLenFS fs3 base2 c0) true)) := by
  obtain ⟨-, hcols⟩ := updateFS_ok_spec base tname updates condStr fs fs2 n cond ti
    o0 condVals hne hpc hinfo hc0 hv0 hnd hok
  constructor
  · intro u hu o vals hlo hsv
    obtain ⟨o2, vals2, hlo2, hsv2, hct, hcf⟩ := hcols u hu
    rw [hlo] at hlo2
    cases hlo2
    rw [hsv] at hsv2
    cases hsv2
    cases hch : (updateCells u.2 (condVals.map (fun v => evalCondBool v cond)) vals).2 with
    | true =>
      have hfe := hct hch
      have hcv : colValsFS fs2 base u.1
          = (updateCells u.2 (condVals.map (fun v => evalCondBool v cond)) vals).1 := by
        simp [colValsFS, hfe, smapLookup_insert]
      rw [hcv]
      refine ⟨updateCells_length _ _ _, ?_⟩
      intro i hdiff
      obtain ⟨h1, h2, h3⟩ := updateCells_frame u.2 _ vals i hdiff
      rw [List.length_map] at h2
      exact ⟨h1, h2, h3⟩
    | false =>
      obtain ⟨hfe, -⟩ := hcf hch
      have hcv : colValsFS fs2 base u.1 = vals := by
        simp [colValsFS, hfe, hlo, hsv]
      rw [hcv]
      exact ⟨rfl, fun i hdiff => absurd rfl hdiff⟩
  · intro base2 fs3 c0 m rest cond2
    cases hl : fsLookup (colPath base2 c0) fs3 with
    | none => simp [affectedBitmap, colLenFS, hl]
    | some fd =>
      cases fd with
      | infoFile ti2 => simp [affectedBitmap, colLenFS, hl]
      | colFile o =>
        cases hs : smapLookup c0 o with
        | none => simp [affectedBitmap, colLenFS, hl, hs]
        | some vs => simp [affectedBitmap, colLenFS, hl, hs]

/-- C10 witness: with `x` of length 3 and condition column `y` of length 2
(bitmap length 2), the update leaves `x`'s length at 3 — in particular the
position `2 ≥ min(3, 2)` is untouched. -/
theorem C10_witness :
    (colValsFS (updateFS selBase "t" [("x", Json.int 1)] "y > 3" fsUneven).2
      selBase "x").length = 3 ∧
    affectedBitmap selBase [("x", ⟨"int", false, false⟩), ("y", ⟨"int", false, false⟩)]
      "" default fsUneven = .ok (List.replicate (colLenFS fsUneven selBase "x") true) := by
  obtain ⟨hmain, hnc⟩ := C10_update_bounds selBase "t" [("x", Json.int 1)] "y > 3" fsUneven
    (updateFS selBase "t" [("x", Json.int 1)] "y > 3" fsUneven).2 1 ⟨"y", ">", "3"⟩
    [("x", ⟨"int", false, false⟩), ("y", ⟨"int", false, false⟩)]
    [("y", [Json.int 1, Json.int 10])] [Json.int 1, Json.int 10]
    (by decide) rfl rfl rfl rfl (by decide) rfl
  refine ⟨?_, hnc selBase fsUneven "x" ⟨"int", false, false⟩
    [("y", ⟨"int", false, false⟩)] default⟩
  exact (hmain ("x", Json.int 1) (by decide)
    [("x", [Json.int 0, Json.int 1, Json.int 0])] [Json.int 0, Json.int 1, Json.int 0]
    rfl rfl).1
